import Mathlib

/-!
Shallow embedding of the block request manager in
`src/cmd/banjo/cmd/tx/release_fund.go` (package `netsync`).

Modelling conventions:
* `common.Hash` values and peer identifiers are modelled as `Nat`
  (Go keys the maps by `hash.String()` / `hash.Hex()`, which are both the
  same injective hex rendering in this code base, so a single `Nat` key is
  faithful).
* Wall-clock time is modelled as a `Nat` number of seconds passed
  explicitly to each operation (`time.Now()` becomes the `now` argument;
  `time.Since(t)` becomes `now - t`).
* The Go `RequestManager` keeps the insertion-ordered `pendingBlocks`
  list and the `pendingBlocksByHash` map pointing at the very same
  `*PendingBlock` objects, inserted and removed together in every code
  path; the model keeps the single insertion-ordered list `blocks` (whose
  hashes are pairwise distinct in lockstep states) and derives the
  by-hash lookup from it.
* `pendingBlocksWithHeader` stores pointers into the same records; the
  model stores `PendingBlock` values in `heap` and writes mutations of a
  popped entry back into `blocks` by hash, which coincides with the Go
  pointer aliasing on lockstep states.
* `core.CalculateRootHash` is an external pure function; it is passed as
  an explicit argument `cr : List Nat → Nat` (transactions are opaque
  `Nat`s).
* The external chain store records the admission trace: `chain.AddBlock`
  appends an entry flagged `pending := true`, modelled from the spec
  (§6): newly admitted blocks are accepted-but-unexecuted.
* Loops are written with an explicit structural fuel equal to the exact
  measure the Go loop consumes, so every definition evaluates by `rfl`
  or `decide`; the wrappers always supply sufficient fuel.
-/

namespace Netsync

/-- Timeout in seconds: `RequestTimeout = 10 * time.Second`. -/
def RequestTimeout : Nat := 10

/-- Expiry in seconds: `Expiration = 300 * time.Second`. -/
def Expiration : Nat := 300

/-- `MinInventoryRequestInterval = 3 * time.Second`. -/
def MinInventoryRequestInterval : Nat := 3

/-- `MaxInventoryRequestInterval = 30 * time.Second`. -/
def MaxInventoryRequestInterval : Nat := 30

/-- `RequestQuotaPerSecond = 100`. -/
def RequestQuotaPerSecond : Nat := 100

/-- The `RequestState` enumeration (`RequestToSendDataReq = iota`, ...). -/
inductive RequestState where
  | RequestToSendDataReq
  | RequestWaitingDataResp
  | RequestToSendBodyReq
  | RequestWaitingBodyResp
deriving DecidableEq, Repr

/-- `core.BlockHeader`: the fields this file reads (`Hash()`, `Height`,
`TxHash`). -/
structure BlockHeader where
  hash : Nat
  height : Nat
  txHash : Nat
deriving DecidableEq, Repr

/-- `core.Block`: the fields this file reads (`Hash()`, `Parent`,
`Height`, `Txs`). -/
structure Block where
  hash : Nat
  parent : Nat
  height : Nat
  txs : List Nat
deriving DecidableEq, Repr

/-- The `PendingBlock` record. -/
structure PendingBlock where
  hash : Nat
  block : Option Block
  header : Option BlockHeader
  peers : List Nat
  lastUpdate : Nat
  createdAt : Nat
  status : RequestState
deriving DecidableEq, Repr

/-- `NewPendingBlock(x, peerIds)`. -/
def NewPendingBlock (now : Nat) (x : Nat) (peerIds : List Nat) : PendingBlock :=
  { hash := x
    block := none
    header := none
    peers := peerIds
    lastUpdate := now
    createdAt := now
    status := .RequestToSendDataReq }

/-- `pb.HasTimedOut()`: `time.Since(pb.lastUpdate) > RequestTimeout`. -/
def PendingBlock.HasTimedOut (now : Nat) (pb : PendingBlock) : Bool :=
  decide (RequestTimeout < now - pb.lastUpdate)

/-- `pb.HasExpired()`: `time.Since(pb.createdAt) > Expiration`. -/
def PendingBlock.HasExpired (now : Nat) (pb : PendingBlock) : Bool :=
  decide (Expiration < now - pb.createdAt)

/-- An entry of the chain store, with the pending flag consulted through
`ExtendedBlock.Status.IsPending()`. -/
structure ChainEntry where
  hash : Nat
  pending : Bool
deriving DecidableEq, Repr

/-- `chain.FindBlock(x)`: `some` entry iff the lookup error is nil. -/
def chainFind (chain : List ChainEntry) (x : Nat) : Option ChainEntry :=
  chain.find? (fun e => e.hash == x)

/-- `chain.AddBlock(b)` admits the block; modelled from the spec (§6):
the stored status of a freshly admitted block is accepted-but-unexecuted,
i.e. pending. -/
def chainAdd (chain : List ChainEntry) (b : Block) : List ChainEntry :=
  chain ++ [{ hash := b.hash, pending := true }]

/-- The whole mutable state of a `RequestManager` (plus the traces of its
calls into the chain store and the dispatcher, which the claims observe).
`blocks` plays the role of both `pendingBlocks` (insertion order) and
`pendingBlocksByHash` (they always hold the same records, see the header
comment).  `accepted` is the chronological trace of `chain.AddBlock`
calls, `passedDown` the trace of `syncMgr.PassdownMessage` calls,
`inventoryReqs` the trace of `dispatcher.GetInventory` calls. -/
structure RMState where
  blocks : List PendingBlock
  heap : List PendingBlock
  byParent : List (Nat × List Block)
  chain : List ChainEntry
  accepted : List Nat
  passedDown : List Nat
  lastInventoryRequest : Nat
  quota : Nat
  inventoryReqs : List (List Nat)
deriving DecidableEq, Repr

/-- The state built by `NewRequestManager` (the chain store is handed in
by the sync manager; `lastInventoryRequest` is `time.Unix(0, 0)`). -/
def initState (chain0 : List ChainEntry) : RMState :=
  { blocks := []
    heap := []
    byParent := []
    chain := chain0
    accepted := []
    passedDown := []
    lastInventoryRequest := 0
    quota := RequestQuotaPerSecond
    inventoryReqs := [] }

/-- `rm.pendingBlocksByHash[x]` (the list and the map hold the same
records, so the lookup runs over `blocks`). -/
def byHashLookup (st : RMState) (x : Nat) : Option PendingBlock :=
  st.blocks.find? (fun pb => pb.hash == x)

/-- Mutating the `PendingBlock` shared by list, map and heap through its
pointer: rewrite the record stored under hash `x`. -/
def updatePB (st : RMState) (x : Nat) (f : PendingBlock → PendingBlock) : RMState :=
  { st with blocks := st.blocks.map (fun pb => if pb.hash == x then f pb else pb) }

/-- `rm.pendingBlocksByParent[k]` lookup. -/
def pbpLookup (m : List (Nat × List Block)) (k : Nat) : Option (List Block) :=
  (m.find? (fun e => e.1 == k)).map (fun e => e.2)

/-- `delete(rm.pendingBlocksByParent, k)`. -/
def pbpErase (m : List (Nat × List Block)) (k : Nat) : List (Nat × List Block) :=
  m.filter (fun e => !(e.1 == k))

/-- `rm.pendingBlocksByParent[k] = v` (map assignment). -/
def pbpInsert (m : List (Nat × List Block)) (k : Nat) (v : List Block) :
    List (Nat × List Block) :=
  pbpErase m k ++ [(k, v)]

/-- Total weight of the orphan index: number of keys plus number of
parked blocks.  This is the exact number of loop iterations
`dumpReadyBlocks` can still perform beyond its initial queue. -/
def byParentWeight (m : List (Nat × List Block)) : Nat :=
  m.length + (m.map (fun e => e.2.length)).sum

/-- The union loop of `addHash`: for each incoming peer id, append it to
`pendingBlock.peers` unless it is already there (the Go inner loop ranges
over the current, possibly already extended, peer slice). -/
def unionPeers (peers : List Nat) (peerIDs : List Nat) : List Nat :=
  peerIDs.foldl (fun acc xid => if xid ∈ acc then acc else acc ++ [xid]) peers

/-- `rm.addHash(x, peerIDs)` (the body of `AddHash`, which only adds the
lock). -/
def addHash (now : Nat) (st : RMState) (x : Nat) (peerIDs : List Nat) : RMState :=
  if (chainFind st.chain x).isSome then st
  else
    let st1 :=
      if (byHashLookup st x).isNone then
        { st with blocks := st.blocks ++ [NewPendingBlock now x peerIDs] }
      else st
    match byHashLookup st1 x with
    | none => st1
    | some pb =>
      if pb.block.isSome then st1
      else updatePB st1 x (fun q => { q with peers := unionPeers q.peers peerIDs })

/-- `rm.AddHash(x, peerIDs)`. -/
def AddHash (now : Nat) (st : RMState) (x : Nat) (peerIDs : List Nat) : RMState :=
  addHash now st x peerIDs

/-- The dynamic value handed to `HeaderHeap.Push(x interface\x7b\x7d)`. -/
inductive HeapItem where
  | pb (p : PendingBlock)
  | hdr (h : BlockHeader)

/-- The runtime panics the embedded code can raise. -/
inductive GoPanic where
  | interfaceConversion
deriving DecidableEq, Repr

/-- `HeaderHeap.Push` runs `x.(*PendingBlock)` before appending: a
`*core.BlockHeader` argument makes the type assertion panic, so nothing
is appended. -/
def headerHeapPush (heap : List PendingBlock) : HeapItem → Except GoPanic (List PendingBlock)
  | .pb p => .ok (heap ++ [p])
  | .hdr _ => .error .interfaceConversion

/-- `rm.AddHeader(header)`.  Note that line 499 of the source pushes the
raw `header` (not the `PendingBlock`) into the heap of `*PendingBlock`s;
a panic aborts the call, so the mutations made before the push die with
the process and no post-state is produced. -/
def AddHeader (now : Nat) (st : RMState) (header : BlockHeader) :
    Except GoPanic RMState :=
  if (chainFind st.chain header.hash).isSome then .ok st
  else
    let st1 :=
      if (byHashLookup st header.hash).isNone then addHash now st header.hash []
      else st
    let st2 :=
      updatePB st1 header.hash
        (fun pb => { pb with header := some header, status := .RequestToSendBodyReq })
    match headerHeapPush st2.heap (.hdr header) with
    | .ok h => .ok { st2 with heap := h }
    | .error e => .error e

/-- One iteration body plus loop of `dumpReadyBlocks`, with a structural
fuel.  The fuel handed over by the wrapper (`byParentWeight + |queue|`)
is exactly the largest number of iterations the loop can perform, so the
fuel never runs out (each iteration pops one queue entry and enqueues the
children of at most one erased `byParent` key). -/
def dumpReadyBlocksAux : Nat → RMState → List Block → RMState
  | 0, st, _ => st
  | _ + 1, st, [] => st
  | fuel + 1, st, b :: rest =>
    let hash := b.hash
    let found := pbpLookup st.byParent hash
    let queue2 := match found with
      | some children => rest ++ children
      | none => rest
    let byParent2 := match found with
      | some _ => pbpErase st.byParent hash
      | none => st.byParent
    let blocks2 := st.blocks.filter (fun pb => !(pb.hash == hash))
    let st2 : RMState :=
      { st with
        byParent := byParent2
        blocks := blocks2
        chain := chainAdd st.chain b
        accepted := st.accepted ++ [b.hash]
        passedDown := st.passedDown ++ [b.hash] }
    dumpReadyBlocksAux fuel st2 queue2

/-- `rm.dumpReadyBlocks(block)`: BFS admission of the block and its
parked descendants. -/
def dumpReadyBlocks (st : RMState) (block : Block) : RMState :=
  dumpReadyBlocksAux (byParentWeight st.byParent + 1) st [block]

/-- The tx-root check of `AddBlock`:
`pendingBlock.header != nil && core.CalculateRootHash(block.Txs) != pendingBlock.header.TxHash`. -/
def addBlockCheck (cr : List Nat → Nat) (pb : PendingBlock) (b : Block) : Bool :=
  match pb.header with
  | some hdr => cr b.txs != hdr.txHash
  | none => false

/-- `rm.AddBlock(block)`. -/
def AddBlock (cr : List Nat → Nat) (now : Nat) (st : RMState) (b : Block) : RMState :=
  let st1 :=
    if (byHashLookup st b.hash).isNone then addHash now st b.hash [] else st
  let bad := match byHashLookup st1 b.hash with
    | some pb => addBlockCheck cr pb b
    | none => false
  if bad then st1
  else
    let st2 := match byHashLookup st1 b.hash with
      | some _ => updatePB st1 b.hash (fun q => { q with block := some b })
      | none => st1
    if (chainFind st2.chain b.parent).isSome then dumpReadyBlocks st2 b
    else
      let byParents := (pbpLookup st2.byParent b.parent).getD []
      let byParents2 :=
        if byParents.any (fun child => child.hash == b.hash) then byParents
        else byParents ++ [b]
      { st2 with byParent := pbpInsert st2.byParent b.parent byParents2 }

/-- `rm.dumpAllReadyBlocks()`: snapshot the pending records, then promote
every one whose body is known and whose parent is admitted and not
pending.  (Go iterates the `pendingBlocksByHash` map in unspecified
order; the model iterates the snapshot in insertion order.) -/
def dumpAllReadyBlocks (st : RMState) : RMState :=
  st.blocks.foldl
    (fun acc pb =>
      match pb.block with
      | none => acc
      | some b =>
        match chainFind acc.chain b.parent with
        | some eb => if eb.pending then acc else dumpReadyBlocks acc b
        | none => acc)
    st

/-- `rm.removeEl(el)`: drop the record from list and by-hash map and, if
its body is known, unpark that body from `byParent` (erasing the parent
key when its list empties). -/
def removeEl (st : RMState) (h : Nat) : RMState :=
  match byHashLookup st h with
  | none => st
  | some pb =>
    let st1 := { st with blocks := st.blocks.filter (fun q => !(q.hash == h)) }
    match pb.block with
    | none => st1
    | some b =>
      match pbpLookup st1.byParent b.parent with
      | none => st1
      | some children =>
        let m1 := match children.findIdx? (fun child => child.hash == b.hash) with
          | none => st1.byParent
          | some i => pbpInsert st1.byParent b.parent (children.eraseIdx i)
        let m2 :=
          if ((pbpLookup m1 b.parent).getD []).isEmpty then pbpErase m1 b.parent
          else m1
        { st1 with byParent := m2 }

/-- The walk of `downloadBlockFromHash` over the `pendingBlocks` list:
`for curr = Front(); quota != 0 && curr != nil; curr = curr.Next()`.
Returns the list with the per-element mutations applied, the trace of
`GetData` sends (hashes requested) and the expired elements scheduled
for removal, in walk order.  When the quota hits `0` the tail of the
list is left untouched (expired entries there are not collected either,
exactly as in Go). -/
def dlHashLoop (now : Nat) : Nat → List PendingBlock →
    List PendingBlock × List Nat × List Nat
  | _, [] => ([], [], [])
  | quota, pb :: rest =>
    if quota = 0 then (pb :: rest, [], [])
    else if pb.HasExpired now then
      let (l, s, e) := dlHashLoop now quota rest
      (pb :: l, s, pb.hash :: e)
    else if pb.header.isSome then
      let (l, s, e) := dlHashLoop now quota rest
      (pb :: l, s, e)
    else if pb.peers.isEmpty then
      let (l, s, e) := dlHashLoop now quota rest
      (pb :: l, s, e)
    else if pb.status = .RequestToSendDataReq ∨
        (pb.status = .RequestWaitingDataResp ∧ pb.HasTimedOut now) then
      let pb2 := { pb with lastUpdate := now, status := .RequestWaitingDataResp }
      let (l, s, e) := dlHashLoop now (quota - 1) rest
      (pb2 :: l, pb.hash :: s, e)
    else
      let (l, s, e) := dlHashLoop now quota rest
      (pb :: l, s, e)

/-- `rm.downloadBlockFromHash(quota)` (the peer picked by `rand.Intn` is
irrelevant to the state transition; the send trace records the requested
hash). -/
def downloadBlockFromHash (now : Nat) (quota : Nat) (st : RMState) :
    RMState × List Nat :=
  let (blocks2, sends, expired) := dlHashLoop now quota st.blocks
  let st2 := { st with blocks := blocks2 }
  (expired.foldl removeEl st2, sends)

/-- The `Less` key of `HeaderHeap`: `h[i].header.Height` (Go dereferences
the header; entries of the heap always carry one in lockstep states). -/
def heapKey (pb : PendingBlock) : Nat :=
  match pb.header with
  | some hdr => hdr.height
  | none => 0

/-- `heap.Pop` on the height-ordered min-heap: remove a minimal-height
entry.  (`container/heap` leaves the order of equal keys unspecified; the
model removes the first minimal entry.) -/
def popMinHeap : List PendingBlock → Option (PendingBlock × List PendingBlock)
  | [] => none
  | pb :: rest =>
    match popMinHeap rest with
    | none => some (pb, [])
    | some (m, rest2) =>
      if heapKey pb ≤ heapKey m then some (pb, rest) else some (m, pb :: rest2)

/-- The drain loop of `downloadBlockFromHeader`, with a structural fuel
equal to the heap size (each iteration pops exactly one entry, so the
fuel handed over by the wrapper is exact).  Mutations of a popped entry
are written back into `blocks` (pointer aliasing); survivors are pushed
onto the `backup` scratch heap. -/
def dlHeaderLoopAux (now : Nat) :
    Nat → List PendingBlock → Nat → List PendingBlock → RMState → List Nat →
    List PendingBlock × RMState × List Nat
  | 0, _, _, backup, st, sends => (backup, st, sends)
  | fuel + 1, heap, quota, backup, st, sends =>
    if quota = 0 then (backup, st, sends)
    else
      match popMinHeap heap with
      | none => (backup, st, sends)
      | some (pb, rest) =>
        if pb.HasExpired now then
          let pb2 := { pb with header := none }
          dlHeaderLoopAux now fuel rest quota backup
            (updatePB st pb.hash (fun _ => pb2)) sends
        else if pb.block.isSome then
          dlHeaderLoopAux now fuel rest quota backup st sends
        else if pb.peers.isEmpty then
          dlHeaderLoopAux now fuel rest quota backup st sends
        else if pb.status = .RequestToSendBodyReq ∨
            (pb.status = .RequestWaitingBodyResp ∧ pb.HasTimedOut now) then
          let pb2 := { pb with lastUpdate := now, status := .RequestWaitingBodyResp }
          dlHeaderLoopAux now fuel rest (quota - 1) (backup ++ [pb2])
            (updatePB st pb.hash (fun _ => pb2)) (sends ++ [pb.hash])
        else
          dlHeaderLoopAux now fuel rest quota (backup ++ [pb]) st sends

/-- `rm.downloadBlockFromHeader(quota)`: drain the heap into a scratch
heap and swap it in (entries still unpopped when the quota runs out are
dropped together with the old heap, as in the source). -/
def downloadBlockFromHeader (now : Nat) (quota : Nat) (st : RMState) :
    RMState × List Nat :=
  let (backup, st2, sends) := dlHeaderLoopAux now st.heap.length st.heap quota [] st []
  ({ st2 with heap := backup }, sends)

/-- Two's-complement wrap of the Go `int` doubling `step *= 2` (64-bit). -/
def goIntDouble (s : Int) : Int :=
  if 2 ^ 63 ≤ 2 * s then 2 * s - 2 ^ 64
  else if 2 * s < -(2 ^ 63) then 2 * s + 2 ^ 64
  else 2 * s

/-- The locator loop of `buildInventoryRequest`, with a structural fuel:
`for index := tip.Height; index > lfb.Height; index -= uint64(step)`.
The break guard `uint64(step) > index || step <= 0` is modelled as
`step1 ≤ 0 ∨ index < step1` (for a positive `step` the `uint64` cast is
the identity; for a non-positive one the second Go disjunct fires).
`none` means the fuel ran out before the loop ended. -/
def invLocatorLoopFuel (bh : Nat → List Nat) (tipH lfbH : Nat) :
    Nat → Nat → Int → Option (List Nat)
  | 0, _, _ => none
  | fuel + 1, index, step =>
    if lfbH < index then
      let step1 := if 10 ≤ tipH - index then goIntDouble step else step
      if step1 ≤ 0 ∨ (index : Int) < step1 then some []
      else
        match invLocatorLoopFuel bh tipH lfbH fuel (index - step1.toNat) step1 with
        | some l => some (bh index ++ l)
        | none => none
    else some []

/-- `rm.buildInventoryRequest()`: the locator hashes (`starts`), built
from the consensus tip and the last finalized block; `bh` is
`chain.FindBlocksByHeight` (hashes of the blocks at a height).  The fuel
`tipH + 1` always suffices (see the termination theorem). -/
def buildInventoryRequest (bh : Nat → List Nat) (tipH lfbH lfbHash : Nat) :
    List Nat :=
  (invLocatorLoopFuel bh tipH lfbH (tipH + 1) tipH 1).getD [] ++ [lfbHash]

/-- The external collaborators the scheduler reads: the consensus tip
height, the last finalized block, and the by-height index of the chain
store. -/
structure Env where
  tipH : Nat
  lfbH : Nat
  lfbHash : Nat
  byHeight : Nat → List Nat

/-- `rm.tryToDownload()`: possibly send an inventory request, then run
the header download pass and the hash download pass.  Both passes are
handed `rm.quota` — the field itself, read twice and never written —
so each receives the full per-tick value (lines 329–330 of the source).
Returns the new state and the trace of `GetData` sends of this pass. -/
def tryToDownload (env : Env) (now : Nat) (st : RMState) : RMState × List Nat :=
  let hasUndownloadedBlocks :=
    !st.blocks.isEmpty || !st.blocks.isEmpty || !st.byParent.isEmpty || !st.heap.isEmpty
  let minIntervalPassed :=
    decide (MinInventoryRequestInterval ≤ now - st.lastInventoryRequest)
  let maxIntervalPassed :=
    decide (MaxInventoryRequestInterval ≤ now - st.lastInventoryRequest)
  let st1 :=
    if maxIntervalPassed || (hasUndownloadedBlocks && minIntervalPassed) then
      let req := buildInventoryRequest env.byHeight env.tipH env.lfbH env.lfbHash
      { st with lastInventoryRequest := now, inventoryReqs := st.inventoryReqs ++ [req] }
    else st
  let (st2, sendsH) := downloadBlockFromHeader now st1.quota st1
  let (st3, sendsD) := downloadBlockFromHash now st2.quota st2
  (st3, sendsH ++ sendsD)

/-- One tick of `mainLoop`: `rm.quota = RequestQuotaPerSecond;
rm.tryToDownload()`. -/
def tick (env : Env) (now : Nat) (st : RMState) : RMState × List Nat :=
  tryToDownload env now { st with quota := RequestQuotaPerSecond }

/-- The states a `RequestManager` can be driven into by its public entry
points from a fresh manager over an arbitrary initial chain store.  A
panicking `AddHeader` kills the process, so only its `ok` outcomes
produce states. -/
inductive Reachable : RMState → Prop where
  | init : ∀ chain0, Reachable (initState chain0)
  | addHashStep : ∀ st now x P, Reachable st → Reachable (addHash now st x P)
  | addHeaderStep : ∀ st st2 now hdr, Reachable st →
      AddHeader now st hdr = .ok st2 → Reachable st2
  | addBlockStep : ∀ st cr now b, Reachable st → Reachable (AddBlock cr now st b)
  | tickStep : ∀ st env now, Reachable st → Reachable (tick env now st).1
  | dumpAllStep : ∀ st, Reachable st → Reachable (dumpAllReadyBlocks st)

/-- No pre-existing `PendingBlock` for `b.hash` carries a header whose
tx-root disagrees with `cr b.txs` — the condition under which `AddBlock`
reaches its body-attaching code instead of the early mismatch return. -/
def noMismatch (cr : List Nat → Nat) (st : RMState) (b : Block) : Bool :=
  match byHashLookup st b.hash with
  | none => true
  | some pb => !(addBlockCheck cr pb b)

/-- A linear chain `b0 → b1 → … → bn` parked in the orphan index:
`byParent[bi.hash] = [b(i+1)]` for `i < n`, and the last hash is not a
key of `byParent`. -/
def parkedSuffixB (m : List (Nat × List Block)) : List Block → Bool
  | [] => true
  | [b] => (pbpLookup m b.hash).isNone
  | b :: c :: rest => (pbpLookup m b.hash == some [c]) && parkedSuffixB m (c :: rest)

/-- The dedup step of `AddBlock`'s parking code: append `b` to the parked
children unless one with the same hash is already there. -/
def parkDedup (children : List Block) (b : Block) : List Block :=
  if children.any (fun child => child.hash == b.hash) then children
  else children ++ [b]

/-- The status/field consistency of spec §8 invariant 4, repaired to
what the code maintains: a body-request status still implies an attached
header and no body, while a data-request wait whose body has arrived
(attached by `AddBlock` without a status change) is parked under the
body's parent. -/
def StatusOK (st : RMState) : Prop :=
  ∀ pb ∈ st.blocks,
    (pb.status = .RequestWaitingBodyResp → pb.header ≠ none ∧ pb.block = none) ∧
    (pb.status = .RequestWaitingDataResp →
      pb.block = none ∨
      ∃ b, pb.block = some b ∧
        ∃ c ∈ (pbpLookup st.byParent b.parent).getD [], c.hash = pb.hash)

/-- The inductive invariant of reachable manager states that the claims
about statuses rest on: the header heap never grows (its only push
panics), so only the two data-request statuses occur; an attached body
is recorded under the record's own hash; and every record with a body is
parked (by hash) under the body's parent. -/
def Inv (st : RMState) : Prop :=
  st.heap = [] ∧
  (∀ pb ∈ st.blocks,
    pb.status = .RequestToSendDataReq ∨ pb.status = .RequestWaitingDataResp) ∧
  (∀ pb ∈ st.blocks, ∀ b, pb.block = some b → b.hash = pb.hash) ∧
  (∀ pb ∈ st.blocks, ∀ b, pb.block = some b →
    ∃ c ∈ (pbpLookup st.byParent b.parent).getD [], c.hash = b.hash)

/-- The zero tx-root function used by the concrete instances. -/
def crZ : List Nat → Nat := fun _ => 0

/-- A consensus environment with tip and last finalized block both at
height `0`. -/
def envC1 : Env := { tipH := 0, lfbH := 0, lfbHash := 0, byHeight := fun _ => [] }

/-- A pending record holding a header, eligible for a body request. -/
def pbH1 : PendingBlock :=
  { hash := 0, block := none, header := some { hash := 0, height := 5, txHash := 0 },
    peers := [9], lastUpdate := 0, createdAt := 0, status := .RequestToSendBodyReq }

/-- The `i`-th of a hundred header-less pending records eligible for a
data request. -/
def mkDataPB (i : Nat) : PendingBlock :=
  { hash := i + 1, block := none, header := none, peers := [9],
    lastUpdate := 0, createdAt := 0, status := .RequestToSendDataReq }

/-- A manager state with one body-eligible record on the heap and a
hundred data-eligible records on the list. -/
def stC1 : RMState :=
  { blocks := pbH1 :: (List.range 100).map mkDataPB, heap := [pbH1], byParent := [],
    chain := [], accepted := [], passedDown := [], lastInventoryRequest := 0,
    quota := 0, inventoryReqs := [] }

/-- A header for a block absent from the chain store. -/
def hdrC2 : BlockHeader := { hash := 3, height := 1, txHash := 0 }

/-- A chain store holding block `5`, still marked pending. -/
def stC3 : RMState := initState [{ hash := 5, pending := true }]

/-- A block whose parent `5` sits in the chain store. -/
def bC3 : Block := { hash := 10, parent := 5, height := 1, txs := [] }

/-- A chain store already holding block `10` and its parent `5`. -/
def stC4 : RMState :=
  initState [{ hash := 5, pending := false }, { hash := 10, pending := false }]

/-- Block `10` (with parent `5`), already admitted in `stC4`. -/
def bC4 : Block := { hash := 10, parent := 5, height := 1, txs := [] }

/-- The C5 trace: advertise hash `7`, run one tick (a data request is
sent, entering `RequestWaitingDataResp`), then receive the body with an
unknown parent, which parks it without touching the status. -/
def st1C5 : RMState := addHash 0 (initState []) 7 [1]

/-- The state after the first tick of the C5 trace. -/
def st2C5 : RMState := (tick envC1 0 st1C5).1

/-- The body of block `7`, whose parent `5` is not admitted. -/
def bC5 : Block := { hash := 7, parent := 5, height := 2, txs := [] }

/-- The final state of the C5 trace. -/
def st3C5 : RMState := AddBlock crZ 0 st2C5 bC5

/-- Root of the parked chain of the C6 instances. -/
def b0W : Block := { hash := 10, parent := 5, height := 1, txs := [] }

/-- Child of `b0W` in the parked chain of the C6 instances. -/
def b1W : Block := { hash := 11, parent := 10, height := 2, txs := [] }

/-- Pending record of `b0W` with its body attached. -/
def pb10 : PendingBlock :=
  { hash := 10, block := some b0W, header := none, peers := [],
    lastUpdate := 0, createdAt := 0, status := .RequestToSendDataReq }

/-- Pending record of `b1W` with its body attached. -/
def pb11 : PendingBlock :=
  { hash := 11, block := some b1W, header := none, peers := [],
    lastUpdate := 0, createdAt := 0, status := .RequestToSendDataReq }

/-- A state where the chain `b0W → b1W` is fully parked (`b0W` under its
admitted, non-pending parent `5`; `b1W` under `b0W`). -/
def stC6 : RMState :=
  { blocks := [pb10, pb11], heap := [], byParent := [(5, [b0W]), (10, [b1W])],
    chain := [{ hash := 5, pending := false }], accepted := [], passedDown := [],
    lastInventoryRequest := 0, quota := RequestQuotaPerSecond, inventoryReqs := [] }

/-- A state where `b1W` is parked under `b0W`, `b0W` itself is not yet
tracked, and `b0W`'s parent `5` is admitted — the precondition of the
amended promotion-completeness claim for `AddBlock(b0W)`. -/
def stC6W : RMState :=
  { blocks := [pb11], heap := [], byParent := [(10, [b1W])],
    chain := [{ hash := 5, pending := false }], accepted := [], passedDown := [],
    lastInventoryRequest := 0, quota := RequestQuotaPerSecond, inventoryReqs := [] }

/-- A pending record for hash `20` carrying a header with tx-root `3`. -/
def pbC7 : PendingBlock :=
  { hash := 20, block := none, header := some { hash := 20, height := 4, txHash := 3 },
    peers := [1], lastUpdate := 0, createdAt := 0, status := .RequestToSendBodyReq }

/-- A state tracking `pbC7`. -/
def stC7 : RMState :=
  { blocks := [pbC7], heap := [], byParent := [], chain := [], accepted := [],
    passedDown := [], lastInventoryRequest := 0, quota := RequestQuotaPerSecond,
    inventoryReqs := [] }

/-- A body for hash `20` whose tx-root under `crZ` is `0 ≠ 3`. -/
def bC7 : Block := { hash := 20, parent := 2, height := 4, txs := [17] }

/-! ### Helper lemmas -/

theorem dumpReadyBlocksAux_nil (fuel : Nat) (st : RMState) :
    dumpReadyBlocksAux fuel st [] = st := by
  cases fuel <;> rfl

theorem getLast?_append_singleton {α : Type} (l : List α) (a : α) :
    (l ++ [a]).getLast? = some a := by
  induction l with
  | nil => rfl
  | cons x xs ih =>
    rw [List.cons_append, List.getLast?_cons, ih]
    rfl

theorem invLocatorLoopFuel_isSome (bh : Nat → List Nat) (tipH lfbH : Nat) :
    ∀ fuel index step, index < fuel →
      (invLocatorLoopFuel bh tipH lfbH fuel index step).isSome := by
  intro fuel
  induction fuel with
  | zero => intro index step h; omega
  | succ f ih =>
    intro index step h
    unfold invLocatorLoopFuel
    by_cases h1 : lfbH < index
    · simp only [if_pos h1]
      by_cases h2 : (if 10 ≤ tipH - index then goIntDouble step else step) ≤ 0 ∨
          (index : Int) < (if 10 ≤ tipH - index then goIntDouble step else step)
      · simp [h2]
      · simp only [if_neg h2]
        set step1 := if 10 ≤ tipH - index then goIntDouble step else step with hs
        push_neg at h2
        obtain ⟨h3, h4⟩ := h2
        have h6 : index - step1.toNat < f := by omega
        have h7 := ih (index - step1.toNat) step1 h6
        cases hinv : invLocatorLoopFuel bh tipH lfbH f (index - step1.toNat) step1 with
        | none => rw [hinv] at h7; simp at h7
        | some l => simp [hinv]
    · simp [h1]

theorem find?_map_pres (f : PendingBlock → PendingBlock) (hf : ∀ q, (f q).hash = q.hash)
    (l : List PendingBlock) (x : Nat) :
    (l.map (fun pb => if pb.hash == x then f pb else pb)).find? (fun pb => pb.hash == x) =
      (l.find? (fun pb => pb.hash == x)).map f := by
  induction l with
  | nil => rfl
  | cons a t ih =>
    by_cases h : (a.hash == x) = true
    · simp [List.find?, h, hf a]
    · simp only [List.map_cons, List.find?]
      rw [if_neg h]
      simp only [h]
      exact ih

theorem byHashLookup_updatePB (f : PendingBlock → PendingBlock) (hf : ∀ q, (f q).hash = q.hash)
    (st : RMState) (x : Nat) :
    byHashLookup (updatePB st x f) x = (byHashLookup st x).map f := by
  simp only [byHashLookup, updatePB]
  exact find?_map_pres f hf st.blocks x

theorem byHashLookup_addHash_of_none {st : RMState} {x : Nat} (now : Nat) (P : List Nat)
    (h : byHashLookup st x = none) :
    byHashLookup (addHash now st x P) x = none ∨
    ∃ pb, byHashLookup (addHash now st x P) x = some pb ∧
      pb.header = none ∧ pb.block = none := by
  unfold addHash
  by_cases hc : (chainFind st.chain x).isSome
  · left; simp [hc, h]
  · simp only [hc, if_false, Bool.false_eq_true]
    rw [h]
    simp only [Option.isNone_none, if_true]
    have hlook : byHashLookup { st with blocks := st.blocks ++ [NewPendingBlock now x P] } x =
        some (NewPendingBlock now x P) := by
      simp only [byHashLookup, List.find?_append]
      rw [byHashLookup] at h
      rw [h]
      simp [NewPendingBlock, List.find?]
    rw [hlook]
    simp only [NewPendingBlock, Option.isSome_none, Bool.false_eq_true, if_false]
    right
    have h2 := byHashLookup_updatePB (fun q => { q with peers := unionPeers q.peers P })
      (fun q => rfl) { st with blocks := st.blocks ++ [NewPendingBlock now x P] } x
    rw [hlook] at h2
    exact ⟨_, h2, rfl, rfl⟩

theorem addHash_fields (now : Nat) (st : RMState) (x : Nat) (P : List Nat) :
    (addHash now st x P).byParent = st.byParent ∧
    (addHash now st x P).chain = st.chain ∧
    (addHash now st x P).accepted = st.accepted ∧
    (addHash now st x P).passedDown = st.passedDown ∧
    (addHash now st x P).heap = st.heap := by
  unfold addHash updatePB
  split
  · simp
  · split <;> dsimp only <;> split <;> (try split) <;> simp_all

theorem addBlock_shape (cr : List Nat → Nat) (now : Nat) (st : RMState) (b : Block)
    (hok : noMismatch cr st b = true) :
    ∃ st2 : RMState,
      st2.byParent = st.byParent ∧ st2.accepted = st.accepted ∧
      st2.chain = st.chain ∧ st2.passedDown = st.passedDown ∧ st2.heap = st.heap ∧
      AddBlock cr now st b =
        (if (chainFind st.chain b.parent).isSome then dumpReadyBlocks st2 b
         else { st2 with byParent := pbpInsert st.byParent b.parent (parkDedup ((pbpLookup st.byParent b.parent).getD []) b) }) := by
  obtain ⟨hbp, hch, hac, hpd, hhp⟩ := addHash_fields now st b.hash []
  unfold AddBlock
  by_cases h0 : byHashLookup st b.hash = none
  · simp only [h0, Option.isNone_none, if_true]
    rcases byHashLookup_addHash_of_none now [] h0 with h1 | ⟨pb, h1, hh, hb⟩
    · refine ⟨addHash now st b.hash [], hbp, hac, hch, hpd, hhp, ?_⟩
      rw [h1]
      simp only [Bool.false_eq_true, if_false, hch, hbp, parkDedup]
    · refine ⟨updatePB (addHash now st b.hash []) b.hash (fun q => { q with block := some b }),
        hbp, hac, hch, hpd, hhp, ?_⟩
      rw [h1]
      simp only [addBlockCheck, hh, Bool.not_false, Bool.false_eq_true, if_false,
        updatePB, hch, hbp, parkDedup]
  · obtain ⟨pb, hpb⟩ := Option.ne_none_iff_exists'.mp h0
    have hbad : addBlockCheck cr pb b = false := by
      rw [noMismatch, hpb] at hok
      simpa using hok
    simp only [hpb, Option.isNone_some, Bool.false_eq_true, if_false, hbad]
    refine ⟨updatePB st b.hash (fun q => { q with block := some b }), rfl, rfl, rfl, rfl, rfl, ?_⟩
    simp only [updatePB, parkDedup]

theorem dumpAux_step (fuel : Nat) (st : RMState) (b : Block) (rest : List Block) :
    dumpReadyBlocksAux (fuel + 1) st (b :: rest) =
      dumpReadyBlocksAux fuel
        { st with
          byParent := match pbpLookup st.byParent b.hash with
            | some _ => pbpErase st.byParent b.hash
            | none => st.byParent
          blocks := st.blocks.filter (fun pb => !(pb.hash == b.hash))
          chain := chainAdd st.chain b
          accepted := st.accepted ++ [b.hash]
          passedDown := st.passedDown ++ [b.hash] }
        (match pbpLookup st.byParent b.hash with
          | some children => rest ++ children
          | none => rest) := by
  rw [dumpReadyBlocksAux]

theorem dumpAux_accepted_mono : ∀ (fuel : Nat) (st : RMState) (q : List Block),
    ∃ tl, (dumpReadyBlocksAux fuel st q).accepted = st.accepted ++ tl := by
  intro fuel st q
  induction fuel, st, q using dumpReadyBlocksAux.induct with
  | case1 st q => exact ⟨[], by simp [dumpReadyBlocksAux]⟩
  | case2 fuel st => exact ⟨[], by simp [dumpReadyBlocksAux]⟩
  | case3 fuel st b rest =>
    rename_i hash found queue2 byParent2 blocks2 st2 ih
    obtain ⟨tl2, h2⟩ := ih
    refine ⟨b.hash :: tl2, ?_⟩
    rw [show dumpReadyBlocksAux (fuel + 1) st (b :: rest) = dumpReadyBlocksAux fuel st2 queue2 from rfl, h2]
    show (st.accepted ++ [b.hash]) ++ tl2 = st.accepted ++ b.hash :: tl2
    simp

theorem dumpAux_accepted_cons (fuel : Nat) (st : RMState) (b : Block) (rest : List Block) :
    ∃ tl, (dumpReadyBlocksAux (fuel + 1) st (b :: rest)).accepted = st.accepted ++ b.hash :: tl := by
  rw [dumpAux_step]
  obtain ⟨tl2, h2⟩ := dumpAux_accepted_mono fuel _ _
  refine ⟨tl2, ?_⟩
  rw [h2]
  simp

theorem pbpLookup_insert_self (m : List (Nat × List Block)) (k : Nat) (v : List Block) :
    pbpLookup (pbpInsert m k v) k = some v := by
  simp only [pbpLookup, pbpInsert, List.find?_append]
  have h1 : (pbpErase m k).find? (fun e => e.1 == k) = none := by
    rw [List.find?_eq_none]
    intro e he
    have := (List.mem_filter.mp he).2
    simpa using this
  rw [h1]
  simp [List.find?]

/-! ### Claim theorems -/

/-- Claim C10: `buildInventoryRequest` terminates for every pair of tip
height and LFB height — the locator loop completes within `tipH + 1`
iterations (each iteration either breaks or strictly decreases the index
by `step ≥ 1`), and the request is the loop's output followed by the LFB
hash. -/
theorem c10_inventory_terminates (bh : Nat → List Nat) (tipH lfbH lfbHash : Nat) :
    ∃ l, invLocatorLoopFuel bh tipH lfbH (tipH + 1) tipH 1 = some l ∧
      buildInventoryRequest bh tipH lfbH lfbHash = l ++ [lfbHash] := by
  have h := invLocatorLoopFuel_isSome bh tipH lfbH (tipH + 1) tipH 1 (by omega)
  cases hinv : invLocatorLoopFuel bh tipH lfbH (tipH + 1) tipH 1 with
  | none => rw [hinv] at h; simp at h
  | some l => exact ⟨l, rfl, by simp [buildInventoryRequest, hinv]⟩

/-- Claim C9: when the tip height is at most the LFB height the locator
list is exactly `[lfbHash]`; and for every tip/LFB pair the last locator
is the LFB hash. -/
theorem c9_inventory_locator (bh : Nat → List Nat) (tipH lfbH lfbHash : Nat) :
    (tipH ≤ lfbH → buildInventoryRequest bh tipH lfbH lfbHash = [lfbHash]) ∧
    (buildInventoryRequest bh tipH lfbH lfbHash).getLast? = some lfbHash := by
  constructor
  · intro h
    have h1 : ¬ lfbH < tipH := by omega
    simp [buildInventoryRequest, invLocatorLoopFuel, h1]
  · exact getLast?_append_singleton _ _

/-- Witness for C9 at tip height `0`, LFB height `0`, LFB hash `77`. -/
theorem c9_witness :
    (0 : Nat) ≤ 0 ∧ buildInventoryRequest (fun _ => []) 0 0 77 = [77] :=
  ⟨by decide, (c9_inventory_locator (fun _ => []) 0 0 77).1 (by decide)⟩

/-- Claim C2 (code bug): for any header whose hash is not in the chain
store, `AddHeader` panics: line 499 pushes the raw `*core.BlockHeader`
into `pendingBlocksWithHeader`, whose `Push` type-asserts
`*PendingBlock`, so the interface conversion fails and the pending block
is never placed on the heap. -/
theorem c2_addheader_panics (now : Nat) (st : RMState) (hdr : BlockHeader)
    (h : chainFind st.chain hdr.hash = none) :
    AddHeader now st hdr = .error .interfaceConversion := by
  simp only [AddHeader, h, Option.isSome_none, Bool.false_eq_true, if_false]
  rfl

/-- Witness for C2: a fresh manager and the header `hdrC2`. -/
theorem c2_witness :
    chainFind (initState []).chain hdrC2.hash = none ∧
    AddHeader 0 (initState []) hdrC2 = .error .interfaceConversion :=
  ⟨by decide, c2_addheader_panics 0 (initState []) hdrC2 (by decide)⟩

/-- Claim C7: a body whose tx-root disagrees with the attached header of
its pending record is rejected with the whole manager state unchanged. -/
theorem c7_mismatch_rejected (cr : List Nat → Nat) (now : Nat) (st : RMState)
    (b : Block) (pb : PendingBlock) (hdr : BlockHeader)
    (hpb : byHashLookup st b.hash = some pb)
    (hhdr : pb.header = some hdr)
    (hne : cr b.txs ≠ hdr.txHash) :
    AddBlock cr now st b = st := by
  have hbad : addBlockCheck cr pb b = true := by
    simp [addBlockCheck, hhdr, bne_iff_ne, hne]
  simp [AddBlock, hpb, hbad]

/-- Witness for C7: the record `pbC7` (header tx-root `3`) and the body
`bC7` (tx-root `0` under `crZ`). -/
theorem c7_witness :
    byHashLookup stC7 bC7.hash = some pbC7 ∧
    pbC7.header = some { hash := 20, height := 4, txHash := 3 } ∧
    crZ bC7.txs ≠ 3 ∧
    AddBlock crZ 0 stC7 bC7 = stC7 :=
  ⟨by decide, by decide, by decide,
    c7_mismatch_rejected crZ 0 stC7 bC7 pbC7 { hash := 20, height := 4, txHash := 3 }
      (by decide) (by decide) (by decide)⟩

set_option maxRecDepth 40000 in
/-- Claim C1 (code bug): in the state `stC1` a single tick emits `101`
`GetData` requests, exceeding `RequestQuotaPerSecond`: `tryToDownload`
hands the unmodified field `rm.quota` to each downloader by value
(lines 329–330), so the hash pass starts with a fresh quota of 100 even
after the header pass has consumed part of it. -/
theorem c1_quota_not_shared :
    (tick envC1 0 stC1).2.length = 101 ∧
    RequestQuotaPerSecond < (tick envC1 0 stC1).2.length := by
  constructor <;> decide

/-- Claim C3 (amended): for a body that passes the tx-root check (or
lands on a record with no header), `AddBlock` invokes Promotion
(`dumpReadyBlocks`, whose first admission is the block itself) exactly
when the parent hash is in the chain store — with no check of the stored
parent's `Pending` mark — and otherwise parks the block under
`byParent[parent]`, deduplicated by hash. -/
theorem c3_amended (cr : List Nat → Nat) (now : Nat) (st : RMState) (b : Block)
    (hok : noMismatch cr st b = true) :
    ((chainFind st.chain b.parent).isSome = true →
      ∃ tl, (AddBlock cr now st b).accepted = st.accepted ++ b.hash :: tl) ∧
    (chainFind st.chain b.parent = none →
      (AddBlock cr now st b).accepted = st.accepted ∧
      pbpLookup (AddBlock cr now st b).byParent b.parent =
        some (parkDedup ((pbpLookup st.byParent b.parent).getD []) b)) := by
  obtain ⟨st2, hbp, hac, hch, hpd, hhp, heq⟩ := addBlock_shape cr now st b hok
  constructor
  · intro hpar
    rw [heq, if_pos hpar]
    rw [dumpReadyBlocks]
    obtain ⟨tl, h⟩ := dumpAux_accepted_cons (byParentWeight st2.byParent) st2 b []
    exact ⟨tl, by rw [h, hac]⟩
  · intro hpar
    rw [heq, if_neg (by simp [hpar])]
    exact ⟨hac, pbpLookup_insert_self _ _ _⟩

/-- Counterexample to C3 as stated: in `stC3` the parent `5` of `bC3` is
in the chain store but marked `Pending`; the claim requires `bC3` to be
parked under `byParent[5]`, yet `AddBlock` promotes it (it is admitted
to the chain store) and parks nothing. -/
theorem c3_counterexample :
    (chainFind stC3.chain bC3.parent).map ChainEntry.pending = some true ∧
    (AddBlock crZ 0 stC3 bC3).accepted = [bC3.hash] ∧
    pbpLookup (AddBlock crZ 0 stC3 bC3).byParent bC3.parent = none :=
  ⟨by decide, by decide, by decide⟩

/-- Witness for C3 (amended): the promotion branch fires on `stC3`. -/
theorem c3_witness :
    noMismatch crZ stC3 bC3 = true ∧
    (chainFind stC3.chain bC3.parent).isSome = true ∧
    (∃ tl, (AddBlock crZ 0 stC3 bC3).accepted = stC3.accepted ++ bC3.hash :: tl) :=
  ⟨by decide, by decide, (c3_amended crZ 0 stC3 bC3 (by decide)).1 (by decide)⟩

/-- Claim C4 (amended): for a block already admitted to the chain store,
`AddHash` and `AddHeader` are no-ops, but `AddBlock` is not: when the
admitted block's parent is also in the store it re-invokes Promotion,
admitting the block to the chain store again and passing it down to
consensus once more (behaviour `resumePendingBlocks` relies on). -/
theorem c4_amended :
    (∀ (now : Nat) (st : RMState) (x : Nat) (P : List Nat),
      (chainFind st.chain x).isSome = true → addHash now st x P = st) ∧
    (∀ (now : Nat) (st : RMState) (hdr : BlockHeader),
      (chainFind st.chain hdr.hash).isSome = true → AddHeader now st hdr = .ok st) ∧
    (∀ (cr : List Nat → Nat) (now : Nat) (st : RMState) (b : Block),
      (chainFind st.chain b.hash).isSome = true →
      (chainFind st.chain b.parent).isSome = true →
      byHashLookup st b.hash = none →
      pbpLookup st.byParent b.hash = none →
      AddBlock cr now st b =
        { st with chain := chainAdd st.chain b,
                  accepted := st.accepted ++ [b.hash],
                  passedDown := st.passedDown ++ [b.hash] }) := by
  refine ⟨?_, ?_, ?_⟩
  · intro now st x P h
    unfold addHash
    rw [if_pos h]
  · intro now st hdr h
    unfold AddHeader
    rw [if_pos h]
  · intro cr now st b h1 h2 h3 h4
    have hst1 : addHash now st b.hash [] = st := by unfold addHash; rw [if_pos h1]
    have hfilter : st.blocks.filter (fun pb => !(pb.hash == b.hash)) = st.blocks := by
      apply List.filter_eq_self.mpr
      intro a ha
      have := List.find?_eq_none.mp h3 a ha
      simpa using this
    simp only [AddBlock, h3, Option.isNone_none, if_true, hst1, h2, if_pos]
    rw [dumpReadyBlocks, dumpAux_step, h4]
    simp only [hfilter]
    rw [dumpReadyBlocksAux_nil]
    simp

/-- Counterexample to C4 as stated: block `10` of `bC4` is already in
the chain store of `stC4`, yet `AddBlock` passes it down to consensus
again — not a no-op. -/
theorem c4_counterexample :
    (chainFind stC4.chain bC4.hash).isSome = true ∧
    stC4.passedDown = [] ∧
    (AddBlock crZ 0 stC4 bC4).passedDown = [bC4.hash] :=
  ⟨by decide, by decide, by decide⟩

/-- Witness for C4 (amended) at the concrete state `stC4`. -/
theorem c4_witness :
    addHash 0 stC4 10 [1] = stC4 ∧
    AddHeader 0 stC4 { hash := 10, height := 1, txHash := 0 } = .ok stC4 ∧
    AddBlock crZ 0 stC4 bC4 =
      { stC4 with chain := chainAdd stC4.chain bC4,
                  accepted := stC4.accepted ++ [bC4.hash],
                  passedDown := stC4.passedDown ++ [bC4.hash] } :=
  ⟨c4_amended.1 0 stC4 10 [1] (by decide),
   c4_amended.2.1 0 stC4 { hash := 10, height := 1, txHash := 0 } (by decide),
   c4_amended.2.2 crZ 0 stC4 bC4 (by decide) (by decide) (by decide) (by decide)⟩

theorem unionPeers_mem_left : ∀ (P l : List Nat) (y : Nat), y ∈ l → y ∈ unionPeers l P := by
  intro P
  induction P with
  | nil => intro l y h; exact h
  | cons p t ih =>
    intro l y h
    show y ∈ unionPeers (if p ∈ l then l else l ++ [p]) t
    apply ih
    by_cases hp : p ∈ l
    · rw [if_pos hp]; exact h
    · rw [if_neg hp]; exact List.mem_append_left _ h

theorem unionPeers_mem_right : ∀ (P l : List Nat) (y : Nat), y ∈ P → y ∈ unionPeers l P := by
  intro P
  induction P with
  | nil => intro l y h; cases h
  | cons p t ih =>
    intro l y h
    show y ∈ unionPeers (if p ∈ l then l else l ++ [p]) t
    rcases List.mem_cons.mp h with rfl | ht
    · apply unionPeers_mem_left
      by_cases hp : y ∈ l
      · rw [if_pos hp]; exact hp
      · rw [if_neg hp]; exact List.mem_append_right _ (by simp)
    · exact ih _ y ht

theorem unionPeers_absorb : ∀ (P l : List Nat), (∀ y ∈ P, y ∈ l) → unionPeers l P = l := by
  intro P
  induction P with
  | nil => intro l _; rfl
  | cons p t ih =>
    intro l h
    show unionPeers (if p ∈ l then l else l ++ [p]) t = l
    rw [if_pos (h p (by simp))]
    exact ih l (fun y hy => h y (by simp [hy]))

theorem unionPeers_idem (l P : List Nat) :
    unionPeers (unionPeers l P) P = unionPeers l P :=
  unionPeers_absorb P _ (fun y hy => unionPeers_mem_right P l y hy)

theorem updatePB_ext (st : RMState) (x : Nat) (f g : PendingBlock → PendingBlock)
    (h : ∀ q, f q = g q) : updatePB st x f = updatePB st x g := by
  have : f = g := funext h
  rw [this]

theorem updatePB_members_id (st : RMState) (x : Nat) (f : PendingBlock → PendingBlock)
    (h : ∀ q ∈ st.blocks, (q.hash == x) = true → f q = q) : updatePB st x f = st := by
  have h2 : ∀ a ∈ st.blocks,
      (fun pb => if pb.hash == x then f pb else pb) a = id a := by
    intro a ha
    by_cases hx : (a.hash == x) = true
    · simp [hx, h a ha hx]
    · simp [hx]
  simp only [updatePB, List.map_congr_left h2, List.map_id]

theorem updatePB_updatePB (st : RMState) (x : Nat) (f g : PendingBlock → PendingBlock)
    (hf : ∀ q, (f q).hash = q.hash) :
    updatePB (updatePB st x f) x g = updatePB st x (fun q => g (f q)) := by
  simp only [updatePB, List.map_map]
  congr 1
  apply List.map_congr_left
  intro a _
  by_cases hx : (a.hash == x) = true
  · simp [Function.comp, hx, hf]
  · simp [Function.comp, hx]



/-- Claim C8: `AddHash` is idempotent up to peer-set union — for every
state, hash and peer list (and any pair of call times), the second of
two consecutive `AddHash(h, P)` calls leaves the state of the first
unchanged: the repeated union of `P` into the peer set adds nothing
new. -/
theorem c8_addhash_idempotent (now now2 : Nat) (st : RMState) (x : Nat) (P : List Nat) :
    AddHash now2 (AddHash now st x P) x P = AddHash now st x P := by
  show addHash now2 (addHash now st x P) x P = addHash now st x P
  by_cases hc : (chainFind st.chain x).isSome
  · have h1 : addHash now st x P = st := by unfold addHash; rw [if_pos hc]
    rw [h1]
    unfold addHash
    rw [if_pos hc]
  · cases hlk : byHashLookup st x with
    | some pb =>
      have hfirst : ∀ n, addHash n st x P =
          (if pb.block.isSome then st
           else updatePB st x (fun q => { q with peers := unionPeers q.peers P })) := by
        intro n
        unfold addHash
        rw [if_neg hc]
        simp only [hlk, Option.isNone_some, Bool.false_eq_true, if_false]
      by_cases hb : pb.block.isSome
      · rw [hfirst now, if_pos hb, hfirst now2, if_pos hb]
      · have hbn : pb.block = none := by
          cases hpb : pb.block
          · rfl
          · rw [hpb] at hb; simp at hb
        rw [hfirst now, if_neg hb]
        have hlk2 : byHashLookup (updatePB st x (fun q => { q with peers := unionPeers q.peers P })) x =
            some { pb with peers := unionPeers pb.peers P } := by
          rw [byHashLookup_updatePB (fun q => { q with peers := unionPeers q.peers P })
            (fun q => rfl) st x, hlk]
          rfl
        unfold addHash
        rw [if_neg (show ¬ (chainFind (updatePB st x (fun q => { q with peers := unionPeers q.peers P })).chain x).isSome = true from hc)]
        simp only [hlk2, Option.isNone_some, Bool.false_eq_true, if_false, hbn,
          Option.isSome_none]
        rw [updatePB_updatePB st x (fun q => { q with peers := unionPeers q.peers P })
          (fun q => { q with peers := unionPeers q.peers P }) (fun q => rfl)]
        exact updatePB_ext st x _ _ (fun q => by simp [unionPeers_idem])
    | none =>
      have hnone_all : ∀ q ∈ st.blocks, (q.hash == x) = false := by
        intro q hq
        have := List.find?_eq_none.mp hlk q hq
        simpa using this
      have hfirst : addHash now st x P =
          { st with blocks := st.blocks ++
              [{ NewPendingBlock now x P with peers := unionPeers P P }] } := by
        unfold addHash
        rw [if_neg hc]
        simp only [hlk, Option.isNone_none, if_true]
        have hlook : byHashLookup { st with blocks := st.blocks ++ [NewPendingBlock now x P] } x =
            some (NewPendingBlock now x P) := by
          simp only [byHashLookup, List.find?_append]
          rw [byHashLookup] at hlk
          rw [hlk]
          simp [NewPendingBlock, List.find?]
        rw [hlook]
        simp only [NewPendingBlock, Option.isSome_none, Bool.false_eq_true, if_false]
        simp only [updatePB, List.map_append]
        have hmap : st.blocks.map
            (fun pb => if pb.hash == x then
              ({ pb with peers := unionPeers pb.peers P } : PendingBlock) else pb) = st.blocks := by
          have h2 : ∀ a ∈ st.blocks,
              (fun pb => if pb.hash == x then
                ({ pb with peers := unionPeers pb.peers P } : PendingBlock) else pb) a = id a := by
            intro a ha
            simp [hnone_all a ha]
          rw [List.map_congr_left h2, List.map_id]
        rw [hmap]
        simp [NewPendingBlock]
      rw [hfirst]
      have hP : unionPeers P P = P := unionPeers_absorb P P (fun y hy => hy)
      set fresh2 : PendingBlock := { NewPendingBlock now x P with peers := unionPeers P P } with hfr
      have hlk2 : byHashLookup { st with blocks := st.blocks ++ [fresh2] } x = some fresh2 := by
        simp only [byHashLookup, List.find?_append]
        rw [byHashLookup] at hlk
        rw [hlk]
        simp [hfr, NewPendingBlock, List.find?]
      unfold addHash
      rw [if_neg hc]
      simp only [hlk2, Option.isNone_some, Bool.false_eq_true, if_false]
      apply updatePB_members_id
      intro q hq hqx
      rcases List.mem_append.mp hq with hql | hqr
      · rw [hnone_all q hql] at hqx; cases hqx
      · have hq2 : q = fresh2 := by simpa using hqr
        rw [hq2]
        show ({ fresh2 with peers := unionPeers fresh2.peers P } : PendingBlock) = fresh2
        have h3 : unionPeers fresh2.peers P = fresh2.peers := by
          show unionPeers (unionPeers P P) P = unionPeers P P
          exact unionPeers_idem P P
        rw [h3]

/-- Counterexample to C5 as stated: the reachable state `st3C5` (advertise
hash `7`, tick once so a data request is sent, then receive the body of
`7` with an unadmitted parent) holds a `PendingBlock` with status
`AwaitingData` and a non-nil body — `AddBlock` attaches the body without
changing the status. -/
theorem c5_counterexample :
    Reachable st3C5 ∧
    (byHashLookup st3C5 7).map (fun pb => (pb.status, pb.block.isSome)) =
      some (RequestState.RequestWaitingDataResp, true) :=
  ⟨Reachable.addBlockStep st2C5 crZ 0 bC5
    (Reachable.tickStep st1C5 envC1 0
      (Reachable.addHashStep (initState []) 0 7 [1] (Reachable.init []))),
   by decide⟩

/-- Counterexample to C6 as stated for the `dumpAllReadyBlocks`
alternative: in `stC6` the chain `b0W → b1W` is fully parked and `b0W`'s
parent is admitted and non-pending; one `dumpAllReadyBlocks` call admits
both blocks in order, but `b0W` is not removed from `byParent` — only
keys of promoted hashes are deleted, so `byParent[b0W.parent]` still
holds `b0W`. -/
theorem c6_counterexample :
    (dumpAllReadyBlocks stC6).accepted = [b0W.hash, b1W.hash] ∧
    pbpLookup (dumpAllReadyBlocks stC6).byParent b0W.parent = some [b0W] :=
  ⟨by decide, by decide⟩

theorem byParentWeight_filter_le (m : List (Nat × List Block)) (p : Nat × List Block → Bool) :
    byParentWeight (m.filter p) ≤ byParentWeight m := by
  induction m with
  | nil => simp [byParentWeight]
  | cons e t ih =>
    by_cases hp : p e = true
    · simp only [List.filter_cons, hp, if_true, byParentWeight, List.length_cons,
        List.map_cons, List.sum_cons] at *
      omega
    · simp only [List.filter_cons, hp, Bool.false_eq_true, if_false, byParentWeight,
        List.length_cons, List.map_cons, List.sum_cons] at *
      omega

theorem pbpErase_weight (m : List (Nat × List Block)) (k : Nat) (l : List Block)
    (h : pbpLookup m k = some l) :
    byParentWeight (pbpErase m k) + l.length + 1 ≤ byParentWeight m := by
  induction m with
  | nil => simp [pbpLookup] at h
  | cons e t ih =>
    by_cases he : (e.1 == k) = true
    · have hl : l = e.2 := by
        simp only [pbpLookup, List.find?, he, Option.map_some'] at h
        exact (Option.some.injEq _ _ ▸ h).symm
      have h2 : pbpErase (e :: t) k = pbpErase t k := by
        simp [pbpErase, List.filter_cons, he]
      rw [h2, hl]
      have h3 := byParentWeight_filter_le t (fun e2 => !(e2.1 == k))
      simp only [byParentWeight, List.length_cons, List.map_cons, List.sum_cons]
      simp only [byParentWeight, pbpErase] at h3 ⊢
      omega
    · have h2 : pbpErase (e :: t) k = e :: pbpErase t k := by
        simp [pbpErase, List.filter_cons, he]
      have h3 : pbpLookup t k = some l := by
        simp only [pbpLookup, List.find?, he] at h ⊢
        exact h
      have := ih h3
      rw [h2]
      simp only [byParentWeight, List.length_cons, List.map_cons, List.sum_cons] at *
      omega

theorem pbpLookup_erase_ne (m : List (Nat × List Block)) (k k2 : Nat) (hne : k ≠ k2) :
    pbpLookup (pbpErase m k2) k = pbpLookup m k := by
  induction m with
  | nil => rfl
  | cons e t ih =>
    by_cases he : (e.1 == k2) = true
    · have hek : (e.1 == k) = false := by
        have : e.1 = k2 := by simpa using he
        simp [this, Ne.symm hne]
      simp only [pbpErase, List.filter_cons, he, Bool.not_true, Bool.false_eq_true, if_false]
      simp only [pbpLookup, List.find?, hek] at *
      exact ih
    · simp only [pbpErase, List.filter_cons, he, Bool.not_false, if_true]
      by_cases hek : (e.1 == k) = true
      · simp [pbpLookup, List.find?, hek]
      · simp only [pbpLookup, List.find?, hek] at *
        exact ih

theorem pbpErase_of_lookup_none (m : List (Nat × List Block)) (k : Nat)
    (h : pbpLookup m k = none) : pbpErase m k = m := by
  have h2 : m.find? (fun e => e.1 == k) = none := by
    simp only [pbpLookup, Option.map_eq_none'] at h
    exact h
  apply List.filter_eq_self.mpr
  intro e he
  have := List.find?_eq_none.mp h2 e he
  simpa using this

theorem parkedSuffixB_erase (m : List (Nat × List Block)) (k : Nat) :
    ∀ cs : List Block, parkedSuffixB m cs = true → (∀ bb ∈ cs, bb.hash ≠ k) →
      parkedSuffixB (pbpErase m k) cs = true := by
  intro cs
  induction cs with
  | nil => intro _ _; rfl
  | cons c tail ih =>
    cases tail with
    | nil =>
      intro hp hd
      show (pbpLookup (pbpErase m k) c.hash).isNone = true
      rw [pbpLookup_erase_ne m c.hash k (hd c (by simp))]
      exact hp
    | cons d t2 =>
      intro hp hd
      have hp2 := hp
      rw [parkedSuffixB, Bool.and_eq_true] at hp2
      obtain ⟨hp1, hptail⟩ := hp2
      rw [parkedSuffixB, Bool.and_eq_true]
      constructor
      · rw [pbpLookup_erase_ne m c.hash k (hd c (by simp))]
        exact hp1
      · exact ih hptail (fun bb hbb => hd bb (List.mem_cons_of_mem c hbb))



theorem filter_key_cons {α : Type} (l : List α) (key : α → Nat) (h : Nat) (hs : List Nat) :
    (l.filter (fun a => !(key a == h))).filter (fun a => !(hs.contains (key a))) =
      l.filter (fun a => !((h :: hs).contains (key a))) := by
  rw [List.filter_filter]
  apply List.filter_congr
  intro a _
  simp only [List.contains_cons, Bool.not_or]
  exact Bool.and_comm _ _

theorem dumpChainRun : ∀ (rest : List Block) (b : Block) (st : RMState) (fuel : Nat),
    parkedSuffixB st.byParent (b :: rest) = true →
    ((b :: rest).map Block.hash).Nodup →
    byParentWeight st.byParent + 1 ≤ fuel →
    (dumpReadyBlocksAux fuel st [b]).accepted = st.accepted ++ (b :: rest).map Block.hash ∧
    (dumpReadyBlocksAux fuel st [b]).passedDown = st.passedDown ++ (b :: rest).map Block.hash ∧
    (dumpReadyBlocksAux fuel st [b]).blocks =
      st.blocks.filter (fun pb => !(((b :: rest).map Block.hash).contains pb.hash)) ∧
    (dumpReadyBlocksAux fuel st [b]).byParent =
      st.byParent.filter (fun e => !(((b :: rest).map Block.hash).contains e.1)) ∧
    (dumpReadyBlocksAux fuel st [b]).heap = st.heap := by
  intro rest
  induction rest with
  | nil =>
    intro b st fuel hpark hnd hfuel
    have hlk : pbpLookup st.byParent b.hash = none := by
      rw [show parkedSuffixB st.byParent [b] = (pbpLookup st.byParent b.hash).isNone from rfl]
        at hpark
      exact Option.isNone_iff_eq_none.mp hpark
    cases fuel with
    | zero => omega
    | succ f =>
      rw [dumpAux_step, hlk]
      rw [dumpReadyBlocksAux_nil]
      refine ⟨rfl, rfl, ?_, ?_, rfl⟩
      · apply List.filter_congr
        intro pb _
        simp only [List.map_cons, List.map_nil, List.contains_cons, List.contains_nil,
          Bool.or_false]
      · show st.byParent = _
        symm
        apply List.filter_eq_self.mpr
        intro e he
        have h2 : st.byParent.find? (fun e2 => e2.1 == b.hash) = none := by
          simp only [pbpLookup, Option.map_eq_none'] at hlk
          exact hlk
        have := List.find?_eq_none.mp h2 e he
        simp only [List.map_cons, List.map_nil, List.contains_cons]
        simpa using this
  | cons c rest2 ih =>
    intro b st fuel hpark hnd hfuel
    have hpark2 := hpark
    rw [parkedSuffixB, Bool.and_eq_true] at hpark2
    obtain ⟨hp1, hptail⟩ := hpark2
    have hlk : pbpLookup st.byParent b.hash = some [c] := by simpa using hp1
    have hdisj : ∀ bb ∈ (c :: rest2), bb.hash ≠ b.hash := by
      intro bb hbb heq
      have hmem : b.hash ∈ (c :: rest2).map Block.hash :=
        List.mem_map.mpr ⟨bb, hbb, heq⟩
      have := (List.nodup_cons.mp hnd).1
      exact this hmem
    cases fuel with
    | zero =>
      exfalso
      omega
    | succ f =>
      rw [dumpAux_step, hlk]
      have hweight := pbpErase_weight st.byParent b.hash [c] hlk
      have hparked2 : parkedSuffixB (pbpErase st.byParent b.hash) (c :: rest2) = true :=
        parkedSuffixB_erase st.byParent b.hash (c :: rest2) hptail hdisj
      have hnd2 : ((c :: rest2).map Block.hash).Nodup := by
        rw [List.map_cons] at hnd
        exact (List.nodup_cons.mp hnd).2
      have hfuel2 : byParentWeight (pbpErase st.byParent b.hash) + 1 ≤ f := by
        simp only [List.length_cons, List.length_nil] at hweight
        omega
      obtain ⟨ha, hp, hb, hbp, hh⟩ := ih c
        { st with
          byParent := pbpErase st.byParent b.hash
          blocks := st.blocks.filter (fun pb => !(pb.hash == b.hash))
          chain := chainAdd st.chain b
          accepted := st.accepted ++ [b.hash]
          passedDown := st.passedDown ++ [b.hash] }
        f hparked2 hnd2 hfuel2
      dsimp only
      rw [List.nil_append]
      refine ⟨?_, ?_, ?_, ?_, ?_⟩
      · rw [ha]
        simp
      · rw [hp]
        simp
      · rw [hb]
        show (st.blocks.filter (fun pb => !(pb.hash == b.hash))).filter _ = _
        rw [filter_key_cons st.blocks (fun pb => pb.hash) b.hash ((c :: rest2).map Block.hash)]
        rfl
      · rw [hbp]
        show ((st.byParent.filter (fun e => !(e.1 == b.hash))).filter _) = _
        rw [filter_key_cons st.byParent (fun e => e.1) b.hash ((c :: rest2).map Block.hash)]
        rfl
      · exact hh



/-- Claim C6 (amended): promotion is complete and ordered through
`AddBlock`: for a linear chain `b0 -> b1 -> ... -> bn` with `b1..bn`
parked under their parents' hashes, the chain hashes pairwise distinct
and not occurring elsewhere in the orphan index, `b0`'s tx-root passing
the check, and `b0.parent` admitted, a single `AddBlock(b0)` admits
every one of `b0..bn` to the chain store in chain order (ascending
height, since each child is one level deeper) and removes each of them
from the list, from `byHash` and from `byParent`.  (The
`dumpAllReadyBlocks` variant of the original claim fails: it leaves the
root parked, see the counterexample.) -/
theorem c6_amended (cr : List Nat → Nat) (now : Nat) (st : RMState) (b0 : Block)
    (rest : List Block)
    (_hlink : List.Chain' (fun a c => c.parent = a.hash) (b0 :: rest))
    (hpark : parkedSuffixB st.byParent (b0 :: rest) = true)
    (hnd : ((b0 :: rest).map Block.hash).Nodup)
    (hclean : st.byParent.all (fun e => ((b0 :: rest).map Block.hash).contains e.1 ||
        e.2.all (fun c => !(((b0 :: rest).map Block.hash).contains c.hash))) = true)
    (hok : noMismatch cr st b0 = true)
    (hpar : (chainFind st.chain b0.parent).isSome = true) :
    (AddBlock cr now st b0).accepted = st.accepted ++ (b0 :: rest).map Block.hash ∧
    (∀ h ∈ (b0 :: rest).map Block.hash, byHashLookup (AddBlock cr now st b0) h = none) ∧
    (∀ e ∈ (AddBlock cr now st b0).byParent,
      ((b0 :: rest).map Block.hash).contains e.1 = false ∧
      ∀ c ∈ e.2, ((b0 :: rest).map Block.hash).contains c.hash = false) := by
  obtain ⟨st2, hbp, hac, hch, hpd, hhp, heq⟩ := addBlock_shape cr now st b0 hok
  rw [heq, if_pos hpar, dumpReadyBlocks]
  obtain ⟨ha, hp, hb, hbyp, hh⟩ :=
    dumpChainRun rest b0 st2 (byParentWeight st2.byParent + 1)
      (by rw [hbp]; exact hpark) hnd (le_refl _)
  refine ⟨?_, ?_, ?_⟩
  · rw [ha, hac]
  · intro h hmem
    simp only [byHashLookup]
    rw [hb, List.find?_eq_none]
    intro pb hpb
    have h2 := (List.mem_filter.mp hpb).2
    intro hcontra
    have h3 : pb.hash = h := by simpa using hcontra
    rw [h3] at h2
    have h4 : ((b0 :: rest).map Block.hash).contains h = true := by simpa using hmem
    rw [h4] at h2
    simp at h2
  · intro e he
    rw [hbyp] at he
    obtain ⟨he1, he2⟩ := List.mem_filter.mp he
    have hkey : ((b0 :: rest).map Block.hash).contains e.1 = false := by
      simpa using he2
    refine ⟨hkey, ?_⟩
    rw [hbp] at he1
    have h5 := List.all_eq_true.mp hclean e he1
    rw [hkey, Bool.false_or, List.all_eq_true] at h5
    intro c hc
    have h6 := h5 c hc
    simpa using h6

/-- Witness for C6 (amended): the two-block chain `b0W -> b1W` in
`stC6W`. -/
theorem c6_witness :
    parkedSuffixB stC6W.byParent [b0W, b1W] = true ∧
    ((AddBlock crZ 0 stC6W b0W).accepted = stC6W.accepted ++ [b0W, b1W].map Block.hash ∧
     (∀ h ∈ [b0W, b1W].map Block.hash, byHashLookup (AddBlock crZ 0 stC6W b0W) h = none) ∧
     (∀ e ∈ (AddBlock crZ 0 stC6W b0W).byParent,
       ([b0W, b1W].map Block.hash).contains e.1 = false ∧
       ∀ c ∈ e.2, ([b0W, b1W].map Block.hash).contains c.hash = false)) :=
  ⟨by decide,
   c6_amended crZ 0 stC6W b0W [b1W]
     (List.chain'_cons.mpr ⟨rfl, List.chain'_singleton b1W⟩)
     (by decide) (by decide) (by decide) (by decide) (by decide)⟩

theorem findIdx?_start_succ {α : Type} (p : α → Bool) :
    ∀ (l : List α) (i : Nat), l.findIdx? p (i + 1) = (l.findIdx? p i).map (· + 1) := by
  intro l
  induction l with
  | nil => intro i; rfl
  | cons d t ih =>
    intro i
    rw [List.findIdx?_cons, List.findIdx?_cons]
    by_cases hd : p d = true
    · simp [hd]
    · simp only [hd, Bool.false_eq_true, if_false]
      exact ih (i + 1)

theorem removeFirst_eq_eraseP {α : Type} (p : α → Bool) : ∀ l : List α,
    (match l.findIdx? p with
     | none => l
     | some i => l.eraseIdx i) = l.eraseP p := by
  intro l
  induction l with
  | nil => rfl
  | cons d t ih =>
    rw [List.findIdx?_cons, List.eraseP_cons]
    by_cases hd : p d = true
    · simp [hd]
    · simp only [hd, Bool.false_eq_true, if_false, cond_false]
      rw [show (0 : Nat) + 1 = 0 + 1 from rfl, findIdx?_start_succ]
      cases hf : t.findIdx? p 0 with
      | none =>
        simp only [Option.map_none']
        rw [hf] at ih
        simpa using ih
      | some j =>
        simp only [Option.map_some']
        rw [hf] at ih
        show (d :: t).eraseIdx (j + 1) = d :: t.eraseP p
        rw [List.eraseIdx_cons_succ]
        simpa using ih

theorem pbpLookup_insert_ne (m : List (Nat × List Block)) (k k2 : Nat) (v : List Block)
    (hne : k2 ≠ k) : pbpLookup (pbpInsert m k v) k2 = pbpLookup m k2 := by
  have h1 : ([(k, v)] : List (Nat × List Block)).find? (fun e => e.1 == k2) = none := by
    have hk : (k == k2) = false := by
      simp only [beq_eq_false_iff_ne, ne_eq]
      exact Ne.symm hne
    simp [List.find?, hk]
  have h2 : pbpLookup (pbpInsert m k v) k2 = pbpLookup (pbpErase m k) k2 := by
    simp only [pbpLookup, pbpInsert, List.find?_append, h1, Option.or_none]
  rw [h2, pbpLookup_erase_ne m k2 k hne]



theorem foldl_preserve {α : Type} (P : RMState → Prop) (f : RMState → α → RMState)
    (hf : ∀ s a, P s → P (f s a)) :
    ∀ (l : List α) (s : RMState), P s → P (l.foldl f s) := by
  intro l
  induction l with
  | nil => intro s h; exact h
  | cons a t ih => intro s h; exact ih (f s a) (hf s a h)

theorem updatePB_mem (st : RMState) (x : Nat) (f : PendingBlock → PendingBlock) :
    ∀ pb2 ∈ (updatePB st x f).blocks,
      ∃ pb ∈ st.blocks, pb2 = if pb.hash == x then f pb else pb := by
  intro pb2 h
  simp only [updatePB, List.mem_map] at h
  obtain ⟨pb, hpb, hpb2⟩ := h
  exact ⟨pb, hpb, hpb2.symm⟩

theorem addHash_blocks_cases (now : Nat) (st : RMState) (x : Nat) (P : List Nat) :
    ∀ pb2 ∈ (addHash now st x P).blocks,
      (∃ pb ∈ st.blocks, pb2.hash = pb.hash ∧ pb2.block = pb.block ∧
        pb2.header = pb.header ∧ pb2.status = pb.status) ∨
      (pb2.block = none ∧ pb2.header = none ∧ pb2.status = .RequestToSendDataReq) := by
  intro pb2 hmem
  unfold addHash at hmem
  by_cases hc : (chainFind st.chain x).isSome
  · rw [if_pos hc] at hmem
    exact Or.inl ⟨pb2, hmem, rfl, rfl, rfl, rfl⟩
  · rw [if_neg hc] at hmem
    by_cases hn : (byHashLookup st x).isNone
    · simp only [hn, if_true] at hmem
      cases hlk : byHashLookup { st with blocks := st.blocks ++ [NewPendingBlock now x P] } x with
      | none =>
        rw [hlk] at hmem
        dsimp only at hmem
        rcases List.mem_append.mp hmem with h1 | h2
        · exact Or.inl ⟨pb2, h1, rfl, rfl, rfl, rfl⟩
        · right
          have : pb2 = NewPendingBlock now x P := by simpa using h2
          rw [this]
          exact ⟨rfl, rfl, rfl⟩
      | some pb =>
        rw [hlk] at hmem
        dsimp only at hmem
        by_cases hbs : pb.block.isSome
        · rw [if_pos hbs] at hmem
          rcases List.mem_append.mp hmem with h1 | h2
          · exact Or.inl ⟨pb2, h1, rfl, rfl, rfl, rfl⟩
          · right
            have : pb2 = NewPendingBlock now x P := by simpa using h2
            rw [this]
            exact ⟨rfl, rfl, rfl⟩
        · rw [if_neg hbs] at hmem
          obtain ⟨pb3, hpb3, hpb2⟩ :=
            updatePB_mem { st with blocks := st.blocks ++ [NewPendingBlock now x P] } x
              (fun q => { q with peers := unionPeers q.peers P }) pb2 hmem
          have hfields : pb2.hash = pb3.hash ∧ pb2.block = pb3.block ∧
              pb2.header = pb3.header ∧ pb2.status = pb3.status := by
            rw [hpb2]
            by_cases hx : (pb3.hash == x) = true
            · rw [if_pos hx]; exact ⟨rfl, rfl, rfl, rfl⟩
            · rw [if_neg hx]; exact ⟨rfl, rfl, rfl, rfl⟩
          rcases List.mem_append.mp hpb3 with h1 | h2
          · exact Or.inl ⟨pb3, h1, hfields.1, hfields.2.1, hfields.2.2.1, hfields.2.2.2⟩
          · right
            have h3 : pb3 = NewPendingBlock now x P := by simpa using h2
            rw [hfields.2.1, hfields.2.2.1, hfields.2.2.2, h3]
            exact ⟨rfl, rfl, rfl⟩
    · simp only [hn, Bool.false_eq_true, if_false] at hmem
      cases hlk : byHashLookup st x with
      | none =>
        rw [hlk] at hmem
        dsimp only at hmem
        exact Or.inl ⟨pb2, hmem, rfl, rfl, rfl, rfl⟩
      | some pb =>
        rw [hlk] at hmem
        dsimp only at hmem
        by_cases hbs : pb.block.isSome
        · rw [if_pos hbs] at hmem
          exact Or.inl ⟨pb2, hmem, rfl, rfl, rfl, rfl⟩
        · rw [if_neg hbs] at hmem
          obtain ⟨pb3, hpb3, hpb2⟩ :=
            updatePB_mem st x (fun q => { q with peers := unionPeers q.peers P }) pb2 hmem
          left
          refine ⟨pb3, hpb3, ?_⟩
          rw [hpb2]
          by_cases hx : (pb3.hash == x) = true
          · rw [if_pos hx]; exact ⟨rfl, rfl, rfl, rfl⟩
          · rw [if_neg hx]; exact ⟨rfl, rfl, rfl, rfl⟩

theorem addHeader_ok_eq (now : Nat) (st : RMState) (hdr : BlockHeader) (st2 : RMState)
    (h : AddHeader now st hdr = .ok st2) : st2 = st := by
  unfold AddHeader at h
  by_cases hc : (chainFind st.chain hdr.hash).isSome
  · rw [if_pos hc] at h
    cases h
    rfl
  · rw [if_neg hc] at h
    simp only [headerHeapPush] at h
    cases h

theorem dumpAux_heap : ∀ (fuel : Nat) (st : RMState) (q : List Block),
    (dumpReadyBlocksAux fuel st q).heap = st.heap := by
  intro fuel st q
  induction fuel, st, q using dumpReadyBlocksAux.induct with
  | case1 st q => rfl
  | case2 fuel st => rfl
  | case3 fuel st b rest =>
    rename_i hash found queue2 byParent2 blocks2 st2 ih
    rw [show dumpReadyBlocksAux (fuel + 1) st (b :: rest) =
      dumpReadyBlocksAux fuel st2 queue2 from rfl]
    exact ih

theorem dumpAux_blocks_sub : ∀ (fuel : Nat) (st : RMState) (q : List Block),
    ∀ pb ∈ (dumpReadyBlocksAux fuel st q).blocks, pb ∈ st.blocks := by
  intro fuel st q
  induction fuel, st, q using dumpReadyBlocksAux.induct with
  | case1 st q => intro pb h; exact h
  | case2 fuel st => intro pb h; exact h
  | case3 fuel st b rest =>
    rename_i hash found queue2 byParent2 blocks2 st2 ih
    intro pb h
    rw [show dumpReadyBlocksAux (fuel + 1) st (b :: rest) =
      dumpReadyBlocksAux fuel st2 queue2 from rfl] at h
    have h2 := ih pb h
    exact (List.mem_filter.mp h2).1



theorem dumpAux_inv3 : ∀ (fuel : Nat) (st : RMState) (q : List Block),
    byParentWeight st.byParent + q.length ≤ fuel →
    (∀ pb ∈ st.blocks, ∀ b, pb.block = some b → b.hash = pb.hash) →
    (∀ pb ∈ st.blocks, ∀ b, pb.block = some b →
      (∃ c ∈ (pbpLookup st.byParent b.parent).getD [], c.hash = b.hash) ∨
      (∃ qq ∈ q, qq.hash = pb.hash)) →
    ∀ pb ∈ (dumpReadyBlocksAux fuel st q).blocks, ∀ b, pb.block = some b →
      ∃ c ∈ (pbpLookup (dumpReadyBlocksAux fuel st q).byParent b.parent).getD [],
        c.hash = b.hash := by
  intro fuel
  induction fuel with
  | zero =>
    intro st q hfuel hinv4 hinv3 pb hpb b hb
    have hq : q = [] := by
      cases q with
      | nil => rfl
      | cons a t =>
        exfalso
        simp only [List.length_cons] at hfuel
        omega
    subst hq
    rcases hinv3 pb hpb b hb with h | ⟨qq, hqq, _⟩
    · exact h
    · cases hqq
  | succ f ih =>
    intro st q hfuel hinv4 hinv3
    cases q with
    | nil =>
      intro pb hpb b hb
      rcases hinv3 pb hpb b hb with h | ⟨qq, hqq, _⟩
      · exact h
      · cases hqq
    | cons b0 rest =>
      rw [dumpAux_step]
      cases hfound : pbpLookup st.byParent b0.hash with
      | none =>
        dsimp only
        apply ih
        · show byParentWeight st.byParent + rest.length ≤ f
          simp only [List.length_cons] at hfuel
          omega
        · intro pb hpb b hb
          exact hinv4 pb (List.mem_filter.mp hpb).1 b hb
        · intro pb hpb b hb
          obtain ⟨hpbmem, hpbne⟩ := List.mem_filter.mp hpb
          have hpbne2 : pb.hash ≠ b0.hash := by simpa using hpbne
          rcases hinv3 pb hpbmem b hb with ⟨c, hc, hch⟩ | ⟨qq, hqq, hqh⟩
          · exact Or.inl ⟨c, hc, hch⟩
          · rcases List.mem_cons.mp hqq with h0 | hq2
            · exfalso
              rw [h0] at hqh
              exact hpbne2 hqh.symm
            · exact Or.inr ⟨qq, hq2, hqh⟩
      | some children =>
        dsimp only
        apply ih
        · show byParentWeight (pbpErase st.byParent b0.hash) + (rest ++ children).length ≤ f
          have hweight := pbpErase_weight st.byParent b0.hash children hfound
          simp only [List.length_cons] at hfuel
          simp only [List.length_append]
          omega
        · intro pb hpb b hb
          exact hinv4 pb (List.mem_filter.mp hpb).1 b hb
        · intro pb hpb b hb
          obtain ⟨hpbmem, hpbne⟩ := List.mem_filter.mp hpb
          have hpbne2 : pb.hash ≠ b0.hash := by simpa using hpbne
          rcases hinv3 pb hpbmem b hb with ⟨c, hc, hch⟩ | ⟨qq, hqq, hqh⟩
          · by_cases hpar : b.parent = b0.hash
            · right
              rw [hpar, hfound] at hc
              refine ⟨c, List.mem_append_right rest (by simpa using hc), ?_⟩
              rw [hch]
              exact hinv4 pb hpbmem b hb
            · left
              rw [pbpLookup_erase_ne st.byParent b.parent b0.hash hpar]
              exact ⟨c, hc, hch⟩
          · rcases List.mem_cons.mp hqq with h0 | hq2
            · exfalso
              rw [h0] at hqh
              exact hpbne2 hqh.symm
            · exact Or.inr ⟨qq, List.mem_append_left children hq2, hqh⟩



theorem Inv_removeEl (st : RMState) (h : Nat) (hinv : Inv st) : Inv (removeEl st h) := by
  obtain ⟨hheap, hstat, hinv4, hinv3⟩ := hinv
  unfold removeEl
  cases hlk : byHashLookup st h with
  | none => exact ⟨hheap, hstat, hinv4, hinv3⟩
  | some pb =>
    dsimp only
    have hpbmem : pb ∈ st.blocks := List.mem_of_find?_eq_some hlk
    have hpbh : pb.hash = h := by
      have := List.find?_some hlk
      simpa using this
    have hsub : ∀ pb2 ∈ st.blocks.filter (fun q => !(q.hash == h)),
        pb2 ∈ st.blocks ∧ pb2.hash ≠ h := by
      intro pb2 h2
      obtain ⟨ha, hb⟩ := List.mem_filter.mp h2
      exact ⟨ha, by simpa using hb⟩
    cases hbk : pb.block with
    | none =>
      refine ⟨hheap, ?_, ?_, ?_⟩
      · intro pb2 h2; exact hstat pb2 (hsub pb2 h2).1
      · intro pb2 h2; exact hinv4 pb2 (hsub pb2 h2).1
      · intro pb2 h2; exact hinv3 pb2 (hsub pb2 h2).1
    | some b =>
      dsimp only
      have hbh : b.hash = h := by rw [← hpbh]; exact hinv4 pb hpbmem b hbk
      cases hpl : pbpLookup st.byParent b.parent with
      | none =>
        refine ⟨hheap, ?_, ?_, ?_⟩
        · intro pb2 h2; exact hstat pb2 (hsub pb2 h2).1
        · intro pb2 h2; exact hinv4 pb2 (hsub pb2 h2).1
        · intro pb2 h2; exact hinv3 pb2 (hsub pb2 h2).1
      | some children =>
        dsimp only
        refine ⟨hheap, ?_, ?_, ?_⟩
        · intro pb2 h2; exact hstat pb2 (hsub pb2 h2).1
        · intro pb2 h2; exact hinv4 pb2 (hsub pb2 h2).1
        · intro pb2 h2 bb hbb
          obtain ⟨hmem2, hne2⟩ := hsub pb2 h2
          obtain ⟨c, hc, hch⟩ := hinv3 pb2 hmem2 bb hbb
          have hbbh : bb.hash = pb2.hash := hinv4 pb2 hmem2 bb hbb
          have hcne : c.hash ≠ b.hash := by
            rw [hch, hbbh, hbh]
            exact hne2
          cases hidx : children.findIdx? (fun child => child.hash == b.hash) with
          | none =>
            simp only [hpl, Option.getD_some]
            by_cases hemp : children.isEmpty = true
            · rw [if_pos hemp]
              by_cases hpar : bb.parent = b.parent
              · exfalso
                rw [hpar, hpl] at hc
                rw [List.isEmpty_iff] at hemp
                rw [hemp] at hc
                simp at hc
              · rw [pbpLookup_erase_ne st.byParent bb.parent b.parent hpar]
                exact ⟨c, hc, hch⟩
            · rw [if_neg hemp]
              exact ⟨c, hc, hch⟩
          | some i =>
            have herase : children.eraseIdx i =
                children.eraseP (fun child => child.hash == b.hash) := by
              have h5 := removeFirst_eq_eraseP (fun child => child.hash == b.hash) children
              rw [hidx] at h5
              exact h5
            have hlkM1 : pbpLookup
                (pbpInsert st.byParent b.parent (children.eraseIdx i)) b.parent =
                some (children.eraseIdx i) := pbpLookup_insert_self _ _ _
            simp only [hlkM1, Option.getD_some]
            by_cases hemp : (children.eraseIdx i).isEmpty = true
            · rw [if_pos hemp]
              by_cases hpar : bb.parent = b.parent
              · exfalso
                rw [hpar, hpl] at hc
                have hc2 : c ∈ children := by simpa using hc
                have hcmem : c ∈ children.eraseIdx i := by
                  rw [herase]
                  exact (List.mem_eraseP_of_neg (by simpa using hcne)).mpr hc2
                rw [List.isEmpty_iff] at hemp
                rw [hemp] at hcmem
                cases hcmem
              · rw [pbpLookup_erase_ne _ bb.parent b.parent hpar,
                  pbpLookup_insert_ne st.byParent b.parent bb.parent _ hpar]
                exact ⟨c, hc, hch⟩
            · rw [if_neg hemp]
              by_cases hpar : bb.parent = b.parent
              · rw [hpar, hlkM1]
                rw [hpar, hpl] at hc
                have hc2 : c ∈ children := by simpa using hc
                have hcmem : c ∈ children.eraseIdx i := by
                  rw [herase]
                  exact (List.mem_eraseP_of_neg (by simpa using hcne)).mpr hc2
                exact ⟨c, by simpa using hcmem, hch⟩
              · rw [pbpLookup_insert_ne st.byParent b.parent bb.parent _ hpar]
                exact ⟨c, hc, hch⟩



theorem dlHashLoop_mem (now : Nat) : ∀ (quota : Nat) (l : List PendingBlock),
    ∀ pb2 ∈ (dlHashLoop now quota l).1,
      ∃ pb ∈ l, pb2 = pb ∨
        pb2 = { pb with lastUpdate := now, status := .RequestWaitingDataResp } := by
  intro quota l
  induction quota, l using dlHashLoop.induct now with
  | case1 q =>
    intro pb2 h2
    simp [dlHashLoop] at h2
  | case2 pb rest =>
    intro pb2 h2
    rw [dlHashLoop] at h2
    rw [if_pos rfl] at h2
    exact ⟨pb2, h2, Or.inl rfl⟩
  | case3 quota pb rest h0 h1 l s e heq ih =>
    intro pb2 h2
    rw [dlHashLoop, if_neg h0, if_pos h1, heq] at h2
    dsimp only at h2
    rcases List.mem_cons.mp h2 with h3 | h3
    · exact ⟨pb, List.mem_cons_self _ _, Or.inl h3⟩
    · obtain ⟨pb3, hm, hc⟩ := ih pb2 (by rw [heq]; exact h3)
      exact ⟨pb3, List.mem_cons_of_mem pb hm, hc⟩
  | case4 quota pb rest h0 h1 hh l s e heq ih =>
    intro pb2 h2
    rw [dlHashLoop, if_neg h0, if_neg h1, if_pos hh, heq] at h2
    dsimp only at h2
    rcases List.mem_cons.mp h2 with h3 | h3
    · exact ⟨pb, List.mem_cons_self _ _, Or.inl h3⟩
    · obtain ⟨pb3, hm, hc⟩ := ih pb2 (by rw [heq]; exact h3)
      exact ⟨pb3, List.mem_cons_of_mem pb hm, hc⟩
  | case5 quota pb rest h0 h1 hh hp l s e heq ih =>
    intro pb2 h2
    rw [dlHashLoop, if_neg h0, if_neg h1, if_neg hh, if_pos hp, heq] at h2
    dsimp only at h2
    rcases List.mem_cons.mp h2 with h3 | h3
    · exact ⟨pb, List.mem_cons_self _ _, Or.inl h3⟩
    · obtain ⟨pb3, hm, hc⟩ := ih pb2 (by rw [heq]; exact h3)
      exact ⟨pb3, List.mem_cons_of_mem pb hm, hc⟩
  | case6 quota pb rest h0 h1 hh hp hs l s e heq ih =>
    intro pb2 h2
    rw [dlHashLoop, if_neg h0, if_neg h1, if_neg hh, if_neg hp, if_pos hs, heq] at h2
    dsimp only at h2
    rcases List.mem_cons.mp h2 with h3 | h3
    · exact ⟨pb, List.mem_cons_self _ _, Or.inr h3⟩
    · obtain ⟨pb3, hm, hc⟩ := ih pb2 (by rw [heq]; exact h3)
      exact ⟨pb3, List.mem_cons_of_mem pb hm, hc⟩
  | case7 quota pb rest h0 h1 hh hp hs l s e heq ih =>
    intro pb2 h2
    rw [dlHashLoop, if_neg h0, if_neg h1, if_neg hh, if_neg hp, if_neg hs, heq] at h2
    dsimp only at h2
    rcases List.mem_cons.mp h2 with h3 | h3
    · exact ⟨pb, List.mem_cons_self _ _, Or.inl h3⟩
    · obtain ⟨pb3, hm, hc⟩ := ih pb2 (by rw [heq]; exact h3)
      exact ⟨pb3, List.mem_cons_of_mem pb hm, hc⟩

theorem dlHeader_empty (now : Nat) (quota : Nat) (st : RMState) (h : st.heap = []) :
    downloadBlockFromHeader now quota st = (st, []) := by
  unfold downloadBlockFromHeader
  rw [h]
  show ({ st with heap := [] }, ([] : List Nat)) = (st, [])
  rw [show ({ st with heap := [] } : RMState) = st by rw [← h]]



theorem Inv_dumpAux (fuel : Nat) (st : RMState) (q : List Block)
    (hfuel : byParentWeight st.byParent + q.length ≤ fuel)
    (hheap : st.heap = [])
    (hstat : ∀ pb ∈ st.blocks,
      pb.status = .RequestToSendDataReq ∨ pb.status = .RequestWaitingDataResp)
    (hinv4 : ∀ pb ∈ st.blocks, ∀ b, pb.block = some b → b.hash = pb.hash)
    (hinv3q : ∀ pb ∈ st.blocks, ∀ b, pb.block = some b →
      (∃ c ∈ (pbpLookup st.byParent b.parent).getD [], c.hash = b.hash) ∨
      (∃ qq ∈ q, qq.hash = pb.hash)) :
    Inv (dumpReadyBlocksAux fuel st q) := by
  refine ⟨?_, ?_, ?_, ?_⟩
  · rw [dumpAux_heap]; exact hheap
  · intro pb h; exact hstat pb (dumpAux_blocks_sub fuel st q pb h)
  · intro pb h; exact hinv4 pb (dumpAux_blocks_sub fuel st q pb h)
  · exact dumpAux_inv3 fuel st q hfuel hinv4 hinv3q

theorem Inv_addHash (now : Nat) (st : RMState) (x : Nat) (P : List Nat)
    (hinv : Inv st) : Inv (addHash now st x P) := by
  obtain ⟨hheap, hstat, hinv4, hinv3⟩ := hinv
  obtain ⟨hbp, hch, hac, hpd, hhp⟩ := addHash_fields now st x P
  refine ⟨by rw [hhp]; exact hheap, ?_, ?_, ?_⟩
  · intro pb2 h2
    rcases addHash_blocks_cases now st x P pb2 h2 with ⟨pb, hm, _, _, _, hs⟩ | ⟨_, _, hs⟩
    · rw [hs]; exact hstat pb hm
    · rw [hs]; exact Or.inl rfl
  · intro pb2 h2 b hb
    rcases addHash_blocks_cases now st x P pb2 h2 with ⟨pb, hm, hh, hbk, _, _⟩ | ⟨hbk, _, _⟩
    · rw [hh]
      exact hinv4 pb hm b (by rw [← hbk]; exact hb)
    · rw [hbk] at hb; cases hb
  · intro pb2 h2 b hb
    rw [hbp]
    rcases addHash_blocks_cases now st x P pb2 h2 with ⟨pb, hm, _, hbk, _, _⟩ | ⟨hbk, _, _⟩
    · exact hinv3 pb hm b (by rw [← hbk]; exact hb)
    · rw [hbk] at hb; cases hb

theorem Inv_addBlock (cr : List Nat → Nat) (now : Nat) (st : RMState) (b : Block)
    (hinv : Inv st) : Inv (AddBlock cr now st b) := by
  unfold AddBlock
  set st1 := if (byHashLookup st b.hash).isNone = true then addHash now st b.hash [] else st
    with hst1
  have hinv1 : Inv st1 := by
    rw [hst1]
    by_cases h : (byHashLookup st b.hash).isNone = true
    · rw [if_pos h]; exact Inv_addHash now st b.hash [] hinv
    · rw [if_neg h]; exact hinv
  obtain ⟨hheap1, hstat1, hinv41, hinv31⟩ := hinv1
  by_cases hbad : (match byHashLookup st1 b.hash with
    | some pb => addBlockCheck cr pb b
    | none => false) = true
  · rw [if_pos hbad]
    exact ⟨hheap1, hstat1, hinv41, hinv31⟩
  · rw [if_neg hbad]
    set st2 := (match byHashLookup st1 b.hash with
      | some _ => updatePB st1 b.hash (fun q => { q with block := some b })
      | none => st1) with hst2
    have hbp2 : st2.byParent = st1.byParent := by
      rw [hst2]; cases byHashLookup st1 b.hash <;> rfl
    have hheap2 : st2.heap = [] := by
      rw [hst2]; cases byHashLookup st1 b.hash
      · exact hheap1
      · exact hheap1
    have hmem2 : ∀ pb2 ∈ st2.blocks,
        pb2 ∈ st1.blocks ∨
        ∃ pb ∈ st1.blocks, (pb.hash == b.hash) = true ∧
          pb2 = { pb with block := some b } := by
      intro pb2 h2
      rw [hst2] at h2
      cases hlk : byHashLookup st1 b.hash with
      | none => rw [hlk] at h2; exact Or.inl h2
      | some pb0 =>
        rw [hlk] at h2
        obtain ⟨pb, hm, he⟩ := updatePB_mem st1 b.hash (fun q => { q with block := some b }) pb2 h2
        by_cases hx : (pb.hash == b.hash) = true
        · rw [if_pos hx] at he
          exact Or.inr ⟨pb, hm, hx, he⟩
        · rw [if_neg hx] at he
          rw [he]
          exact Or.inl hm
    have hstat2 : ∀ pb2 ∈ st2.blocks,
        pb2.status = .RequestToSendDataReq ∨ pb2.status = .RequestWaitingDataResp := by
      intro pb2 h2
      rcases hmem2 pb2 h2 with h3 | ⟨pb, hm, _, he⟩
      · exact hstat1 pb2 h3
      · rw [he]; exact hstat1 pb hm
    have hinv42 : ∀ pb2 ∈ st2.blocks, ∀ bb, pb2.block = some bb → bb.hash = pb2.hash := by
      intro pb2 h2 bb hbb
      rcases hmem2 pb2 h2 with h3 | ⟨pb, hm, hx, he⟩
      · exact hinv41 pb2 h3 bb hbb
      · rw [he] at hbb
        simp only [Option.some.injEq] at hbb
        rw [he, ← hbb]
        show b.hash = pb.hash
        have hx2 : pb.hash = b.hash := by simpa using hx
        exact hx2.symm
    have hq2 : ∀ pb2 ∈ st2.blocks, ∀ bb, pb2.block = some bb →
        (∃ c ∈ (pbpLookup st2.byParent bb.parent).getD [], c.hash = bb.hash) ∨
        (bb = b ∧ pb2.hash = b.hash) := by
      intro pb2 h2 bb hbb
      rw [hbp2]
      rcases hmem2 pb2 h2 with h3 | ⟨pb, hm, hx, he⟩
      · exact Or.inl (hinv31 pb2 h3 bb hbb)
      · right
        rw [he] at hbb
        simp only [Option.some.injEq] at hbb
        refine ⟨hbb.symm, ?_⟩
        rw [he]
        show pb.hash = b.hash
        simpa using hx
    by_cases hpar : (chainFind st2.chain b.parent).isSome = true
    · rw [if_pos hpar, dumpReadyBlocks]
      apply Inv_dumpAux
      · simp
      · exact hheap2
      · exact hstat2
      · exact hinv42
      · intro pb2 h2 bb hbb
        rcases hq2 pb2 h2 bb hbb with h3 | ⟨hbeq, hhq⟩
        · exact Or.inl h3
        · exact Or.inr ⟨b, List.mem_singleton_self b, hhq.symm⟩
    · rw [if_neg hpar]
      dsimp only
      refine ⟨hheap2, hstat2, hinv42, ?_⟩
      intro pb2 h2 bb hbb
      rcases hq2 pb2 h2 bb hbb with ⟨c, hc, hch⟩ | ⟨hbeq, hhq⟩
      · by_cases hk : bb.parent = b.parent
        · rw [hk]
          rw [pbpLookup_insert_self]
          rw [hk] at hc
          refine ⟨c, ?_, hch⟩
          simp only [Option.getD_some]
          by_cases hany : ((pbpLookup st2.byParent b.parent).getD []).any
              (fun child => child.hash == b.hash) = true
          · rw [if_pos hany]; exact hc
          · rw [if_neg hany]; exact List.mem_append_left _ hc
        · rw [pbpLookup_insert_ne st2.byParent b.parent bb.parent _ hk]
          exact ⟨c, hc, hch⟩
      · rw [hbeq]
        rw [pbpLookup_insert_self]
        simp only [Option.getD_some]
        by_cases hany : ((pbpLookup st2.byParent b.parent).getD []).any
            (fun child => child.hash == b.hash) = true
        · rw [if_pos hany]
          obtain ⟨c, hc, hch⟩ := List.any_eq_true.mp hany
          exact ⟨c, hc, by simpa using hch⟩
        · rw [if_neg hany]
          exact ⟨b, List.mem_append_right _ (by simp), rfl⟩



theorem Inv_dlHash (now : Nat) (quota : Nat) (st : RMState) (hinv : Inv st) :
    Inv (downloadBlockFromHash now quota st).1 := by
  obtain ⟨hheap, hstat, hinv4, hinv3⟩ := hinv
  unfold downloadBlockFromHash
  rcases hdl : dlHashLoop now quota st.blocks with ⟨blocks2, sends, expired⟩
  dsimp only
  apply foldl_preserve Inv removeEl (fun s a hs => Inv_removeEl s a hs)
  have hmem : ∀ pb2 ∈ blocks2, ∃ pb ∈ st.blocks, pb2 = pb ∨
      pb2 = { pb with lastUpdate := now, status := .RequestWaitingDataResp } := by
    intro pb2 h2
    apply dlHashLoop_mem now quota st.blocks pb2
    rw [hdl]
    exact h2
  refine ⟨hheap, ?_, ?_, ?_⟩
  · intro pb2 h2
    obtain ⟨pb, hm, hc⟩ := hmem pb2 h2
    rcases hc with hc1 | hc2
    · rw [hc1]; exact hstat pb hm
    · rw [hc2]; exact Or.inr rfl
  · intro pb2 h2 b hb
    obtain ⟨pb, hm, hc⟩ := hmem pb2 h2
    rcases hc with hc1 | hc2
    · rw [hc1] at hb ⊢; exact hinv4 pb hm b hb
    · rw [hc2] at hb ⊢
      exact hinv4 pb hm b hb
  · intro pb2 h2 b hb
    obtain ⟨pb, hm, hc⟩ := hmem pb2 h2
    rcases hc with hc1 | hc2
    · rw [hc1] at hb; exact hinv3 pb hm b hb
    · rw [hc2] at hb
      exact hinv3 pb hm b hb

theorem Inv_tryDownload (env : Env) (now : Nat) (st : RMState) (hinv : Inv st) :
    Inv (tryToDownload env now st).1 := by
  unfold tryToDownload
  dsimp only
  split
  · have hinv1 : Inv { st with lastInventoryRequest := now, inventoryReqs := st.inventoryReqs ++ [buildInventoryRequest env.byHeight env.tipH env.lfbH env.lfbHash] } :=
      hinv
    rw [dlHeader_empty now _ _ hinv1.1]
    dsimp only
    exact Inv_dlHash now _ _ hinv1
  · rw [dlHeader_empty now _ _ hinv.1]
    dsimp only
    exact Inv_dlHash now _ _ hinv

theorem Inv_tick (env : Env) (now : Nat) (st : RMState) (hinv : Inv st) :
    Inv (tick env now st).1 := by
  unfold tick
  exact Inv_tryDownload env now { st with quota := RequestQuotaPerSecond } hinv

theorem Inv_dumpAll (st : RMState) (hinv : Inv st) : Inv (dumpAllReadyBlocks st) := by
  unfold dumpAllReadyBlocks
  apply foldl_preserve Inv _ ?_ st.blocks st hinv
  intro s pb hs
  cases pb.block with
  | none => exact hs
  | some bb =>
    dsimp only
    cases chainFind s.chain bb.parent with
    | none => exact hs
    | some eb =>
      dsimp only
      cases heb : eb.pending with
      | true => rw [if_pos rfl]; exact hs
      | false =>
        rw [if_neg Bool.false_ne_true]
        rw [dumpReadyBlocks]
        apply Inv_dumpAux
        · simp
        · exact hs.1
        · exact hs.2.1
        · exact hs.2.2.1
        · intro pb2 h2 b hb
          exact Or.inl (hs.2.2.2 pb2 h2 b hb)

theorem Inv_init (chain0 : List ChainEntry) : Inv (initState chain0) := by
  refine ⟨rfl, ?_, ?_, ?_⟩ <;> intro pb hpb <;> cases hpb

theorem Inv_reachable : ∀ st : RMState, Reachable st → Inv st := by
  intro st h
  induction h with
  | init c0 => exact Inv_init c0
  | addHashStep st now x P hr ih => exact Inv_addHash now st x P ih
  | addHeaderStep st st2 now hdr hr heq ih =>
    rw [addHeader_ok_eq now st hdr st2 heq]
    exact ih
  | addBlockStep st cr now b hr ih => exact Inv_addBlock cr now st b ih
  | tickStep st env now hr ih => exact Inv_tick env now st ih
  | dumpAllStep st hr ih => exact Inv_dumpAll st ih



/-- Claim C5 (amended): in every reachable state, the status/field
consistency that the code actually maintains holds: `AwaitingBody`
implies an attached header and no body (vacuously, since the body
request path is unreachable — `AddHeader` panics before completing, so
only the two data-request statuses occur), and a record in status
`AwaitingData` either has no body or — because `AddBlock` attaches a
body without changing the status — is parked by hash under
`byParent[body.parent]`. -/
theorem c5_amended : ∀ st : RMState, Reachable st → StatusOK st := by
  intro st h
  obtain ⟨hheap, hstat, hinv4, hinv3⟩ := Inv_reachable st h
  intro pb hpb
  constructor
  · intro hs
    rcases hstat pb hpb with h1 | h1 <;> rw [hs] at h1 <;> cases h1
  · intro _
    cases hbk : pb.block with
    | none => exact Or.inl rfl
    | some b =>
      right
      refine ⟨b, rfl, ?_⟩
      obtain ⟨c, hc, hch⟩ := hinv3 pb hpb b hbk
      exact ⟨c, hc, by rw [hch]; exact hinv4 pb hpb b hbk⟩

theorem c5_witness : StatusOK (initState []) :=
  c5_amended (initState []) (Reachable.init [])

end Netsync
